import Mathlib

/-!
# sve-demo: benchmark harness (Runtime.h, Runtime.cpp, sve-demo.cpp)

A shallow embedding of the timing primitive `Runtime`, of the helpers
`compareVectors` and `vector_add_i32_c`, and of the per-thread loop
`worker_thread_main`, followed by the properties established about them.

Conventions.
* `uint64_t` values are `Nat`s reduced modulo `2 ^ 64` where the source can wrap;
  `int32_t` values are `Int`s reduced into `[-2^31, 2^31)` by `wrap32`.
* `double` values are modelled by `Dbl`: the non-negative IEEE-754 binary64 numbers
  (53 significant bits, round to nearest, ties to even, gradual underflow, overflow
  to `+∞`) together with `+∞` and `NaN`.  `Runtime` only ever adds non-negative
  quantities to accumulators that start at `0`, so negative values never arise.
* What the outside world supplies (`clock_gettime`, `rand`, the flag written by the
  signal handler) is an explicit input.
* A C++ exception is a value: a call returns the state it leaves behind together
  with `some message` when it threw.
-/

namespace SveDemo

/-! ## IEEE-754 binary64, non-negative part -/

/-- A `double`: a finite non-negative value, `+∞`, or `NaN`. -/
inductive Dbl where
  | fin (q : ℚ)
  | inf
  | nan
  deriving DecidableEq

/-- How many times `n` must be halved to drop below `2 ^ 53`; `fuel` bounds the search and
`fuel = n` is always enough. -/
def excessBits : Nat → Nat → Nat
  | 0, _ => 0
  | fuel + 1, n => if n < 2 ^ 53 then 0 else excessBits fuel (n / 2) + 1

/-- How many times `a / b` must be doubled to reach `2 ^ 52`, at most `fuel` times. -/
def deficitBits : Nat → Nat → Nat → Nat
  | 0, _, _ => 0
  | fuel + 1, a, b => if 2 ^ 52 * b ≤ a then 0 else deficitBits fuel (2 * a) b + 1

/-- The integer nearest to `num / den`, a tie going to the even neighbour. -/
def nearestEven (num den : Nat) : Nat :=
  let m := num / den
  let r := num % den
  if 2 * r < den then m
  else if den < 2 * r then m + 1
  else if m % 2 = 0 then m else m + 1

/-- Rounds `a / b` (with `0 < b`) to binary64: `some (m, e)` stands for `m * 2 ^ e` with
`m ≤ 2 ^ 53` and `-1074 ≤ e`, and `none` for overflow, which is a rounded value of
`2 ^ 1024 = 2 ^ 53 * 2 ^ 971` or more. -/
def roundME (a b : Nat) : Option (Nat × Int) :=
  if 2 ^ 53 ≤ a / b then
    let k := excessBits (a / b) (a / b)
    let m := nearestEven a (b * 2 ^ k)
    if 971 ≤ k ∧ 2 ^ 53 ≤ m * 2 ^ (k - 971) then none else some (m, (k : Int))
  else
    let d := deficitBits 1074 a b
    some (nearestEven (a * 2 ^ d) b, -(d : Int))

namespace Dbl

/-- The `double` nearest to the non-negative rational `q`. -/
def round (q : ℚ) : Dbl :=
  match roundME q.num.toNat q.den with
  | none => inf
  | some (m, e) => fin ((m : ℚ) * 2 ^ e)

/-- Conversion `uint64_t → double`. -/
def ofUInt64 (n : Nat) : Dbl := round (n : ℚ)

/-- The `double` sum `x + y`. -/
def add : Dbl → Dbl → Dbl
  | fin x, fin y => round (x + y)
  | nan, _ => nan
  | _, nan => nan
  | _, _ => inf

/-- The `double` quotient `x / y`. -/
def div : Dbl → Dbl → Dbl
  | fin x, fin y => if y = 0 then (if x = 0 then nan else inf) else round (x / y)
  | fin _, inf => fin 0
  | inf, fin _ => inf
  | _, _ => nan

/-- The comparison `x < y` on `double`s; false as soon as one side is `NaN`. -/
def lt : Dbl → Dbl → Bool
  | fin x, fin y => decide (x < y)
  | fin _, inf => true
  | _, _ => false

/-- The function `std::max(a, b)`, which is `(a < b) ? b : a`. -/
def max (a b : Dbl) : Dbl := if lt a b then b else a

/-- The whole number a `double` holds, for one that holds a whole number. -/
def toNat : Dbl → Nat
  | fin q => Nat.floor q
  | _ => 0

/-- The `double` holds a whole number. -/
def IsNat (x : Dbl) : Prop := x = fin (x.toNat : ℚ)

end Dbl

/-! ## Runtime.cpp -/

/-- What one call of `clock_gettime(CLOCK_MONOTONIC, &ts)` hands back. -/
structure ClockReading where
  status : Int
  tv_sec : Int
  tv_nsec : Int
  deriving DecidableEq

/-- Source function `getMonoTimeNs` (Runtime.cpp): throws when `clock_gettime` fails, else the time in nanoseconds
as a `uint64_t`. -/
def getMonoTimeNs (ts : ClockReading) : Except String Nat :=
  if ts.status ≠ 0 then .error "clock_gettime() failed"
  else .ok ((ts.tv_sec * 1000000000 + ts.tv_nsec) % 2 ^ 64).toNat

/-- The fields of `class Runtime`. -/
structure Runtime where
  mWarmupCount : Nat
  mWarmupCountRemaining : Nat
  mBeginTime : Nat
  mCount : Dbl
  mSum : Dbl
  deriving DecidableEq

namespace Runtime

/-- The constructor `Runtime::Runtime(const uint64_t warmupCount)`. -/
def new (warmupCount : Nat) : Runtime :=
  { mWarmupCount := warmupCount
    mWarmupCountRemaining := 0
    mBeginTime := 0
    mCount := .fin 0
    mSum := .fin 0 }

/-- Source function `Runtime::begin`: the countdown is reset, then the clock is read. -/
def begin (r : Runtime) (ts : ClockReading) : Runtime × Option String :=
  let r1 := { r with mWarmupCountRemaining := r.mWarmupCount }
  match getMonoTimeNs ts with
  | .error msg => (r1, some msg)
  | .ok t => ({ r1 with mBeginTime := t }, none)

/-- Source function `Runtime::record`. -/
def record (r : Runtime) (ts : ClockReading) (elementCount : Nat) : Runtime × Option String :=
  match getMonoTimeNs ts with
  | .error msg => (r, some msg)
  | .ok currentTime =>
    let deltaTime : Nat := (((currentTime : Int) - (r.mBeginTime : Int)) % 2 ^ 64).toNat
    let r1 := { r with mBeginTime := currentTime }
    if deltaTime < 1 then (r1, some "zero runtime")
    else if r1.mWarmupCountRemaining = 0 then
      ({ r1 with mCount := r1.mCount.add (Dbl.ofUInt64 elementCount)
                 mSum := r1.mSum.add (Dbl.ofUInt64 deltaTime) }, none)
    else ({ r1 with mWarmupCountRemaining := r1.mWarmupCountRemaining - 1 }, none)

/-- Source function `Runtime::add`. -/
def add (r other : Runtime) : Runtime :=
  { r with mCount := r.mCount.add other.mCount
           mSum := r.mSum.add other.mSum }

/-- The mean `am` that `Runtime::println` computes. -/
def am (r : Runtime) : Dbl := r.mSum.div (Dbl.max r.mCount (.fin 1))

/-- Source function `Runtime::println`: the three values handed to `printf`. -/
def println (r : Runtime) (name : String) : String × Dbl × Dbl :=
  (name, r.mCount, r.am)

/-- A sequence of `record` calls, each given as the clock reading it finds and its
`elementCount`; it stops at the first call that throws. -/
def recordAll : Runtime → List (ClockReading × Nat) → Runtime × Option String
  | r, [] => (r, none)
  | r, call :: rest =>
    match r.record call.1 call.2 with
    | (r1, none) => recordAll r1 rest
    | (r1, some msg) => (r1, some msg)

end Runtime

/-- The Timer left by `Runtime(0)`, `begin()` at time `0` and a single
`record(elementCount)` one nanosecond later. -/
def timerWith (elementCount : Nat) : Runtime :=
  ((((Runtime.new 0).begin ⟨0, 0, 0⟩).1).record ⟨0, 0, 1⟩ elementCount).1

/-- The Timer left by `Runtime(0)`, `begin()` at time `0` and a single `record(2 ^ 53)`
at `2 ^ 53` ns (9007199 s and 254740992 ns): both accumulators hold `2 ^ 53`. -/
def saturatedTimer : Runtime :=
  ((((Runtime.new 0).begin ⟨0, 0, 0⟩).1).record ⟨0, 9007199, 254740992⟩ 9007199254740992).1

/-- The Timer left by `Runtime(0)` and `begin()` at time `10` ns: nothing recorded and the
checkpoint at `10`. -/
def checkpointAhead : Runtime := ((Runtime.new 0).begin ⟨0, 0, 10⟩).1

/-- The Timer left by `Runtime(0)`, `begin()` at time `0` and a single `record(0)` at
`5` ns: an interval of 5 ns was folded in, with no element counted. -/
def zeroCountTimer : Runtime :=
  ((((Runtime.new 0).begin ⟨0, 0, 0⟩).1).record ⟨0, 0, 5⟩ 0).1

/-! ## sve-demo.cpp: helpers -/

/-- Reduction of an integer to the `int32_t` with the same low 32 bits. -/
def wrap32 (x : Int) : Int := (x + 2 ^ 31) % 2 ^ 32 - 2 ^ 31

/-- The constant `kVectorSize`. -/
def kVectorSize : Nat := 1 * 1024 * 1024

/-- The constant `kRepeatCount`. -/
def kRepeatCount : Nat := 100

/-- The constant `kWarmupCount`. -/
def kWarmupCount : Nat := 10

/-- Source function `makeVector(size)`, drawing its values from the stream `rand` of `rand()` results,
starting at position `pos`; two draws per element. -/
def makeVector (rand : Nat → Nat) (pos size : Nat) : List Int :=
  (List.range size).map fun i =>
    let x := wrap32 (rand (pos + 2 * i))
    if rand (pos + 2 * i + 1) % 2 > 0 then wrap32 (x * -1) else x

/-- The `for` loop of `compareVectors`, at index `i` with `n` indices still to visit. -/
def compareVectors.loop (va vb : List Int) : Nat → Nat → Bool
  | _, 0 => true
  | i, n + 1 => if va.getD i 0 ≠ vb.getD i 0 then false else compareVectors.loop va vb (i + 1) n

/-- Source function `compareVectors`. -/
def compareVectors (va vb : List Int) : Bool :=
  if va.length ≠ vb.length then false
  else compareVectors.loop va vb 0 va.length

/-- The three vectors a kernel is called on. -/
structure KernelArgs where
  vres : List Int
  va : List Int
  vb : List Int
  deriving DecidableEq

/-- The `for` loop of `vector_add_i32_c`, at index `i` with `n` indices still to visit. -/
def vector_add_i32_c.loop : Nat → Nat → KernelArgs → KernelArgs
  | _, 0, m => m
  | i, n + 1, m =>
    vector_add_i32_c.loop (i + 1) n
      { m with vres := m.vres.set i (wrap32 (m.va.getD i 0 + m.vb.getD i 0)) }

/-- Source function `vector_add_i32_c`, as a transformation of the memory it is handed. -/
def vector_add_i32_c (m : KernelArgs) : KernelArgs :=
  if m.vres.length ≠ m.va.length ∨ m.vres.length ≠ m.vb.length then m
  else vector_add_i32_c.loop 0 m.va.length m

/-- The `for` loop of `vector_add_i32_c_prefetch`; the prefetch hints change no value. -/
def vector_add_i32_c_prefetch.loop : Nat → Nat → KernelArgs → KernelArgs
  | _, 0, m => m
  | i, n + 1, m =>
    vector_add_i32_c_prefetch.loop (i + 1) n
      { m with vres := m.vres.set i (wrap32 (m.va.getD i 0 + m.vb.getD i 0)) }

/-- Source function `vector_add_i32_c_prefetch`. -/
def vector_add_i32_c_prefetch (m : KernelArgs) : KernelArgs :=
  if m.vres.length ≠ m.va.length ∨ m.vres.length ≠ m.vb.length then m
  else vector_add_i32_c_prefetch.loop 0 m.va.length m

/-- The `int32_t` value `x` with its `k` low-order bytes cleared. -/
def clearLowBytes (x : Int) (k : Nat) : Int := wrap32 (x - x % (256 : Int) ^ k)

/-- The call `memset(&v[0], 0, n)` on a vector of `int32_t` (four bytes each, least significant
byte first): the first `n` bytes of the buffer become zero. -/
def memset_zero (v : List Int) (n : Nat) : List Int :=
  (List.range v.length).map fun i =>
    if 4 * (i + 1) ≤ n then 0
    else if 4 * i < n then clearLowBytes (v.getD i 0) (n - 4 * i)
    else v.getD i 0

/-! ## sve-demo.cpp: the registry and the worker -/

/-- The type `operation_desc_function_t`: a kernel receives `vres` by reference and `va`, `vb` by
`const` reference, so all it can change is `vres`. -/
abbrev operation_desc_function_t := List Int → List Int → List Int → List Int

/-- The struct `operation_desc_t`. -/
structure operation_desc_t where
  name : String
  fn : operation_desc_function_t
  runtime : Runtime
  result_vector : List Int

/-- Source function `init_op_descriptors`, without the descriptors compiled only for `__aarch64__`. -/
def init_op_descriptors (opDescriptors : List operation_desc_t) : List operation_desc_t :=
  opDescriptors ++
    [ { name := "c"
        fn := fun vres va vb => (vector_add_i32_c ⟨vres, va, vb⟩).vres
        runtime := Runtime.new kWarmupCount
        result_vector := [] },
      { name := "c_prefetch"
        fn := fun vres va vb => (vector_add_i32_c_prefetch ⟨vres, va, vb⟩).vres
        runtime := Runtime.new kWarmupCount
        result_vector := [] } ]

/-- The call `v.resize(n)`: truncation, or padding with zeros. -/
def resize (v : List Int) (n : Nat) : List Int :=
  v.take n ++ List.replicate (n - v.length) 0

/-- The registry `main` builds for one thread: `init_op_descriptors`, then every
`result_vector` resized to `kVectorSize`. -/
def threadOpDescriptors : List operation_desc_t :=
  (init_op_descriptors []).map fun opd =>
    { opd with result_vector := resize opd.result_vector kVectorSize }

/-- The aggregation loop of `main` for one kernel: the global descriptor's `Runtime`
absorbs the `Runtime` of every thread, in thread order. -/
def aggregate (g : Runtime) (threads : List Runtime) : Runtime :=
  threads.foldl Runtime.add g

/-- What a worker thread receives from outside: the successive results of `rand()`, of
`clock_gettime`, and the value of `gKeepRunning` found by each successive read of it. -/
structure Env where
  rand : Nat → Nat
  clock : Nat → ClockReading
  gKeepRunning : Nat → Bool

/-- The state of a worker thread besides its descriptors: the counter `i`, the flag
`gHasErrors`, how much of each input stream has been consumed, and the kernel calls made
so far (the descriptor index of each, oldest first; nothing reads it). -/
structure Thread where
  i : Int
  gHasErrors : Bool
  randCalls : Nat
  clockCalls : Nat
  flagReads : Nat
  trials : List Nat
  deriving DecidableEq

/-- How `worker_thread_main` leaves: its three `return` statements. -/
inductive Exit where
  | error
  | limit
  | signal
  deriving DecidableEq

/-- Where control goes after a piece of `worker_thread_main`: on to the next statement,
out of the function, or out of the thread with an exception. -/
inductive Flow (σ : Type) where
  | next (s : σ)
  | ret (x : Exit) (s : σ)
  | throw (msg : String) (s : σ)

/-- The inner `for (j = 0; gKeepRunning && j < kRepeatCount; ++j)` of descriptor `k`, with
`n = kRepeatCount - j` trials still allowed.  `ref0` is the `result_vector` of descriptor 0
when `k ≠ 0`; descriptor 0 is compared with its own `result_vector`. -/
def trial_loop (env : Env) (va vb : List Int) (k : Nat) (ref0 : Option (List Int)) :
    Nat → operation_desc_t → Thread → Flow (operation_desc_t × Thread)
  | 0, opd, t => .next (opd, { t with flagReads := t.flagReads + 1 })
  | n + 1, opd, t =>
    if env.gKeepRunning t.flagReads then
      let opd1 := { opd with result_vector := opd.fn opd.result_vector va vb }
      let recorded := opd1.runtime.record (env.clock t.clockCalls) kVectorSize
      let opd2 := { opd1 with runtime := recorded.1 }
      let t1 := { t with flagReads := t.flagReads + 1
                         clockCalls := t.clockCalls + 1
                         trials := t.trials ++ [k] }
      match recorded.2 with
      | some msg => .throw msg (opd2, t1)
      | none =>
        if compareVectors opd2.result_vector (ref0.getD opd2.result_vector) then
          trial_loop env va vb k ref0 n opd2 t1
        else .ret .error (opd2, { t1 with gHasErrors := true })
    else .next (opd, { t with flagReads := t.flagReads + 1 })

/-- The loop `for (auto& opd : opDescriptors)` that runs the kernels: `done` are the
descriptors already run, in order, and the list recursed on those still to run. -/
def sweep (env : Env) (va vb : List Int) :
    List operation_desc_t → List operation_desc_t → Thread →
      Flow (List operation_desc_t × Thread)
  | done, [], t => .next (done, t)
  | done, opd :: rest, t =>
    let beg := opd.runtime.begin (env.clock t.clockCalls)
    let opd1 := { opd with runtime := beg.1 }
    let t1 := { t with clockCalls := t.clockCalls + 1 }
    match beg.2 with
    | some msg => .throw msg (done ++ opd1 :: rest, t1)
    | none =>
      match trial_loop env va vb done.length (done.head?.map (·.result_vector))
          kRepeatCount opd1 t1 with
      | .next (opd2, t2) => sweep env va vb (done ++ [opd2]) rest t2
      | .ret x (opd2, t2) => .ret x (done ++ opd2 :: rest, t2)
      | .throw msg (opd2, t2) => .throw msg (done ++ opd2 :: rest, t2)

/-- The zeroing loop at the top of an outer iteration. -/
def zero_result_vectors (opDescriptors : List operation_desc_t) : List operation_desc_t :=
  opDescriptors.map fun opd =>
    { opd with result_vector := memset_zero opd.result_vector kVectorSize }

/-- One pass through the body of `while(true)` in `worker_thread_main`. -/
def iteration (env : Env) (iterationCount : Int) (w : List operation_desc_t × Thread) :
    Flow (List operation_desc_t × Thread) :=
  let va := makeVector env.rand w.2.randCalls kVectorSize
  let vb := makeVector env.rand (w.2.randCalls + 2 * kVectorSize) kVectorSize
  let t := { w.2 with randCalls := w.2.randCalls + 4 * kVectorSize }
  match sweep env va vb [] (zero_result_vectors w.1) t with
  | .throw msg s => .throw msg s
  | .ret x s => .ret x s
  | .next (ops, t1) =>
    if iterationCount > 0 ∧ t1.i ≥ iterationCount then .ret .limit (ops, t1)
    else
      let t2 := { t1 with flagReads := t1.flagReads + 1 }
      if !env.gKeepRunning t1.flagReads then .ret .signal (ops, t2)
      else .next (ops, { t2 with i := wrap32 (t2.i + 1) })

/-- The first `n` passes through `while(true)`: `next` when all of them went on to the
following pass, otherwise how the first one that did not left the function. -/
def run (env : Env) (iterationCount : Int) :
    Nat → List operation_desc_t × Thread → Flow (List operation_desc_t × Thread)
  | 0, w => .next w
  | n + 1, w =>
    match iteration env iterationCount w with
    | .next w1 => run env iterationCount n w1
    | r => r

/-- The state in which `worker_thread_main` starts, `gHasErrors` as it found it. -/
def Thread.start (gHasErrors : Bool) : Thread :=
  { i := 0, gHasErrors := gHasErrors, randCalls := 0, clockCalls := 0, flagReads := 0,
    trials := [] }

/-- Source function `worker_thread_main(threadIdx, iterationCount)`, on the descriptors of its thread,
followed for `n` passes. -/
def worker_thread_main (env : Env) (opDescriptors : List operation_desc_t)
    (iterationCount : Int) (gHasErrors : Bool) (n : Nat) :
    Flow (List operation_desc_t × Thread) :=
  run env iterationCount n (opDescriptors, Thread.start gHasErrors)

/-! ## Vocabulary of the statements about the worker -/

/-- The clock never fails and never shows the same time at two successive readings. -/
def ClockTicks (env : Env) : Prop :=
  ∀ n, ∃ a b, getMonoTimeNs (env.clock n) = .ok a ∧
    getMonoTimeNs (env.clock (n + 1)) = .ok b ∧ a ≠ b

/-- Among the reads of `gKeepRunning` numbered `p`, `p + 1`, ..., `p + n - 1`, how many
come before the first that finds the flag cleared. -/
def pollsPassed (keep : Nat → Bool) : Nat → Nat → Nat
  | _, 0 => 0
  | p, n + 1 => if keep p then pollsPassed keep (p + 1) n + 1 else 0

/-- The kernel calls of one sweep over `m` descriptors numbered from `k`, the first read
of `gKeepRunning` being number `p`: each descriptor is called `pollsPassed` times, at most
`kRepeatCount`, and its loop ends with one more read. -/
def sweepTrials (keep : Nat → Bool) : Nat → Nat → Nat → List Nat
  | _, _, 0 => []
  | p, k, m + 1 =>
    List.replicate (pollsPassed keep p kRepeatCount) k ++
      sweepTrials keep (p + pollsPassed keep p kRepeatCount + 1) (k + 1) m

/-- The number of reads of `gKeepRunning` made once a sweep over `m` descriptors is over,
the first read of the sweep being number `p`. -/
def sweepPolls (keep : Nat → Bool) : Nat → Nat → Nat
  | p, 0 => p
  | p, m + 1 => sweepPolls keep (p + pollsPassed keep p kRepeatCount + 1) m

/-- The kernel leaves the elementwise 32-bit wrapping sum whenever the three lengths
agree. -/
def AddsVectors (fn : operation_desc_function_t) : Prop :=
  ∀ vres va vb : List Int, vres.length = va.length → vres.length = vb.length →
    fn vres va vb = List.zipWith (fun a b => wrap32 (a + b)) va vb

/-- Every kernel of the registry adds vectors and every `result_vector` has `kVectorSize`
elements. -/
def SoundRegistry (ops : List operation_desc_t) : Prop :=
  ∀ d ∈ ops, AddsVectors d.fn ∧ d.result_vector.length = kVectorSize

/-- A kernel that is off by one: it leaves `va[i] + vb[i] + 1` in every position. -/
def vector_add_off_by_one : operation_desc_function_t :=
  fun _ va vb => List.zipWith (fun a b => wrap32 (a + b + 1)) va vb

/-- The registry `main` builds, its second kernel replaced by the one that is off by
one. -/
def faultyOpDescriptors : List operation_desc_t :=
  [ { name := "c"
      fn := fun vres va vb => (vector_add_i32_c ⟨vres, va, vb⟩).vres
      runtime := Runtime.new kWarmupCount
      result_vector := resize [] kVectorSize },
    { name := "off_by_one"
      fn := vector_add_off_by_one
      runtime := Runtime.new kWarmupCount
      result_vector := resize [] kVectorSize } ]

/-- An environment in which the clock advances by one second per reading, `rand()` always
returns 0 and `gKeepRunning` is found set by the reads numbered below `stopAt` and cleared
from then on. -/
def steadyEnv (stopAt : Nat) : Env :=
  { rand := fun _ => 0
    clock := fun n => ⟨0, n, 0⟩
    gKeepRunning := fun p => decide (p < stopAt) }

/-- An environment like `steadyEnv` in which `gKeepRunning` is never cleared. -/
def freeEnv : Env :=
  { rand := fun _ => 0
    clock := fun n => ⟨0, n, 0⟩
    gKeepRunning := fun _ => true }

/-- An environment like `freeEnv` in which the clock shows `0` at every reading. -/
def frozenEnv : Env :=
  { rand := fun _ => 0
    clock := fun _ => ⟨0, 0, 0⟩
    gKeepRunning := fun _ => true }

/-! ### Rounding -/

theorem nearestEven_one (n : Nat) : nearestEven n 1 = n := by
  simp [nearestEven, Nat.mod_one]

theorem le_nearestEven (num den : Nat) : num / den ≤ nearestEven num den := by
  unfold nearestEven
  simp only
  split_ifs <;> omega

theorem excessBits_lower (fuel n : Nat) (h : 2 ^ 52 ≤ n) :
    2 ^ 52 ≤ n / 2 ^ excessBits fuel n := by
  induction fuel generalizing n with
  | zero => simpa [excessBits] using h
  | succ fuel ih =>
    unfold excessBits
    split_ifs with hlt
    · simpa using h
    · have h2 : 2 ^ 52 ≤ n / 2 := by omega
      have := ih (n / 2) h2
      rwa [Nat.div_div_eq_div_mul, ← pow_succ'] at this

theorem roundME_nat_small (n : Nat) (h : n < 2 ^ 53) :
    roundME n 1 = some (n * 2 ^ deficitBits 1074 n 1, -(deficitBits 1074 n 1 : Int)) := by
  have h' : ¬ (2 ^ 53 ≤ n / 1) := by simpa using h
  simp only [roundME, if_neg h', nearestEven_one]

theorem roundME_two_pow_53 : roundME (2 ^ 53) 1 = some (2 ^ 52, 1) := by decide

theorem Dbl.round_of_roundME (n m : Nat) (e : Int) (h : roundME n 1 = some (m, e)) :
    Dbl.round (n : ℚ) = .fin ((m : ℚ) * 2 ^ e) := by
  have hnum : ((n : ℚ).num).toNat = n := by simp
  have hden : (n : ℚ).den = 1 := by simp
  unfold Dbl.round
  rw [hnum, hden, h]

theorem Dbl.round_natCast (n : Nat) (h : n ≤ 2 ^ 53) : Dbl.round (n : ℚ) = .fin n := by
  rcases Nat.lt_or_ge n (2 ^ 53) with hlt | hge
  · rw [Dbl.round_of_roundME n _ _ (roundME_nat_small n hlt)]
    simp only [Dbl.fin.injEq]
    push_cast
    rw [zpow_neg, zpow_natCast]
    field_simp
  · have : n = 2 ^ 53 := le_antisymm h hge
    subst this
    rw [Dbl.round_of_roundME _ _ _ roundME_two_pow_53]
    simp only [Dbl.fin.injEq]
    norm_num

theorem Dbl.ofUInt64_exact (n : Nat) (h : n ≤ 2 ^ 53) : Dbl.ofUInt64 n = .fin n :=
  Dbl.round_natCast n h

theorem Dbl.add_exact (a b : Nat) (h : a + b ≤ 2 ^ 53) :
    Dbl.add (.fin a) (.fin b) = .fin ((a + b : Nat) : ℚ) := by
  show Dbl.round ((a : ℚ) + (b : ℚ)) = _
  rw [← Nat.cast_add]
  exact Dbl.round_natCast _ h

theorem Dbl.add_swap (x y : Dbl) : Dbl.add x y = Dbl.add y x := by
  cases x <;> cases y <;> simp [Dbl.add, add_comm]

theorem roundME_lower (c a b : Nat) (hb : 0 < b) (hc : c ≤ 2 ^ 53) (hcb : c * b ≤ a) :
    roundME a b = none ∨ ∃ m e, roundME a b = some (m, e) ∧ (c : ℚ) ≤ (m : ℚ) * 2 ^ e := by
  unfold roundME
  by_cases hbig : 2 ^ 53 ≤ a / b
  · simp only [if_pos hbig]
    by_cases hov : 971 ≤ excessBits (a / b) (a / b) ∧
        2 ^ 53 ≤ nearestEven a (b * 2 ^ excessBits (a / b) (a / b)) *
          2 ^ (excessBits (a / b) (a / b) - 971)
    · left; rw [if_pos hov]
    · right
      rw [if_neg hov]
      refine ⟨_, _, rfl, ?_⟩
      set k := excessBits (a / b) (a / b) with hk
      have h52 : 2 ^ 52 ≤ a / b := le_trans (by norm_num) hbig
      have hm1 : 2 ^ 52 ≤ nearestEven a (b * 2 ^ k) := by
        have := excessBits_lower (a / b) (a / b) h52
        rw [← hk, Nat.div_div_eq_div_mul] at this
        exact le_trans this (le_nearestEven _ _)
      have hm2 : a / b / 2 ^ k ≤ nearestEven a (b * 2 ^ k) := by
        rw [Nat.div_div_eq_div_mul]; exact le_nearestEven _ _
      have key : 2 ^ 53 ≤ nearestEven a (b * 2 ^ k) * 2 ^ k := by
        rcases Nat.eq_zero_or_pos k with hk0 | hkpos
        · rw [hk0] at hm2 ⊢
          simp only [pow_zero, Nat.div_one, mul_one] at hm2 ⊢
          exact le_trans hbig hm2
        · have h2k : 2 ≤ 2 ^ k := by
            calc 2 = 2 ^ 1 := by norm_num
              _ ≤ 2 ^ k := Nat.pow_le_pow_right (by norm_num) hkpos
          calc 2 ^ 53 = 2 ^ 52 * 2 := by norm_num
            _ ≤ nearestEven a (b * 2 ^ k) * 2 ^ k := Nat.mul_le_mul hm1 h2k
      have key' : ((2 ^ 53 : Nat) : ℚ) ≤ ((nearestEven a (b * 2 ^ k) * 2 ^ k : Nat) : ℚ) :=
        Nat.cast_le.mpr key
      have hcq : (c : ℚ) ≤ ((2 ^ 53 : Nat) : ℚ) := Nat.cast_le.mpr hc
      refine le_trans hcq (le_trans key' ?_)
      push_cast
      rw [zpow_natCast]
  · right
    rw [if_neg hbig]
    refine ⟨_, _, rfl, ?_⟩
    set d := deficitBits 1074 a b with hd
    have h1 : c * 2 ^ d ≤ a * 2 ^ d / b := by
      rw [Nat.le_div_iff_mul_le hb]
      calc c * 2 ^ d * b = c * b * 2 ^ d := by ring
        _ ≤ a * 2 ^ d := Nat.mul_le_mul_right _ hcb
    have h2 : c * 2 ^ d ≤ nearestEven (a * 2 ^ d) b := le_trans h1 (le_nearestEven _ _)
    have h3 : ((c * 2 ^ d : Nat) : ℚ) ≤ ((nearestEven (a * 2 ^ d) b : Nat) : ℚ) :=
      Nat.cast_le.mpr h2
    push_cast at h3
    rw [zpow_neg, zpow_natCast]
    have hpos : (0 : ℚ) < 2 ^ d := by positivity
    rw [← div_eq_mul_inv, le_div_iff₀ hpos]
    exact h3

/-- Rounding never takes a value below a representable integer it started above. -/
theorem Dbl.round_lower (c : Nat) (hc : c ≤ 2 ^ 53) (x : ℚ) (hx : (c : ℚ) ≤ x) :
    Dbl.round x = .inf ∨ ∃ y, Dbl.round x = .fin y ∧ (c : ℚ) ≤ y := by
  have hx0 : 0 ≤ x := le_trans (Nat.cast_nonneg c) hx
  have hnum0 : 0 ≤ x.num := Rat.num_nonneg.mpr hx0
  obtain ⟨a, ha⟩ := Int.eq_ofNat_of_zero_le hnum0
  have hb : 0 < x.den := x.den_pos
  have hxe : x = (a : ℚ) / (x.den : ℚ) := by
    have := (Rat.num_div_den x).symm
    rw [ha] at this
    simpa using this
  have hcb : c * x.den ≤ a := by
    have h1 : (c : ℚ) * (x.den : ℚ) ≤ (a : ℚ) := by
      have hbq : (0 : ℚ) < (x.den : ℚ) := by exact_mod_cast hb
      rw [hxe] at hx
      exact (le_div_iff₀ hbq).mp hx
    exact_mod_cast h1
  unfold Dbl.round
  rw [ha, Int.toNat_ofNat]
  rcases roundME_lower c a x.den hb hc hcb with h | ⟨m, e, h, hle⟩
  · left; rw [h]
  · right; rw [h]; exact ⟨_, rfl, hle⟩

/-- Adding a quantity of at least `1` to an integer-valued `double` below `2 ^ 53`
changes it. -/
theorem Dbl.add_ne_self (s : Nat) (hs : s < 2 ^ 53) (n : Nat) (hn : 1 ≤ n) :
    Dbl.add (.fin s) (Dbl.ofUInt64 n) ≠ .fin s := by
  have h1 := Dbl.round_lower 1 (by norm_num) (n : ℚ) (by exact_mod_cast hn)
  unfold Dbl.ofUInt64
  rcases h1 with h1 | ⟨y, hy, hy1⟩
  · rw [h1]; simp [Dbl.add]
  · rw [hy]
    show Dbl.round ((s : ℚ) + y) ≠ _
    have h2 := Dbl.round_lower (s + 1) (by omega) ((s : ℚ) + y) (by push_cast at hy1 ⊢; linarith)
    rcases h2 with h2 | ⟨z, hz, hz1⟩
    · rw [h2]; simp
    · rw [hz]
      intro hcon
      have : z = s := by simpa using hcon
      rw [this] at hz1
      push_cast at hz1
      linarith

/-! ### Sums evaluated -/

theorem Dbl.add_of_roundME (a b m : Nat) (e : Int) (h : roundME (a + b) 1 = some (m, e)) :
    Dbl.add (.fin a) (.fin b) = .fin ((m : ℚ) * 2 ^ e) := by
  show Dbl.round ((a : ℚ) + (b : ℚ)) = _
  rw [← Nat.cast_add]
  exact Dbl.round_of_roundME _ _ _ h

theorem Dbl.zero_add_zero : Dbl.add (.fin 0) (Dbl.ofUInt64 0) = .fin 0 := by
  have h1 : Dbl.ofUInt64 0 = .fin ((0 : Nat) : ℚ) := Dbl.ofUInt64_exact 0 (by norm_num)
  have h2 := Dbl.add_exact 0 0 (by norm_num)
  rw [h1]; simpa using h2

theorem Dbl.zero_add_one : Dbl.add (.fin 0) (Dbl.ofUInt64 1) = .fin 1 := by
  have h1 : Dbl.ofUInt64 1 = .fin ((1 : Nat) : ℚ) := Dbl.ofUInt64_exact 1 (by norm_num)
  have h2 := Dbl.add_exact 0 1 (by norm_num)
  rw [h1]; simpa using h2

theorem Dbl.zero_add_five : Dbl.add (.fin 0) (Dbl.ofUInt64 5) = .fin 5 := by
  have h1 : Dbl.ofUInt64 5 = .fin ((5 : Nat) : ℚ) := Dbl.ofUInt64_exact 5 (by norm_num)
  have h2 := Dbl.add_exact 0 5 (by norm_num)
  rw [h1]; simpa using h2

theorem Dbl.zero_add_two_pow_53 :
    Dbl.add (.fin 0) (Dbl.ofUInt64 9007199254740992) = .fin 9007199254740992 := by
  have h1 : Dbl.ofUInt64 9007199254740992 = .fin ((9007199254740992 : Nat) : ℚ) :=
    Dbl.ofUInt64_exact _ (by norm_num)
  have h2 := Dbl.add_exact 0 9007199254740992 (by norm_num)
  rw [h1]; simpa using h2

/-- The sum `2 ^ 53 + 1` is halfway between two `double`s and rounds to the even one, `2 ^ 53`. -/
theorem Dbl.absorb_one :
    Dbl.add (.fin 9007199254740992) (Dbl.ofUInt64 1) = .fin 9007199254740992 := by
  have h1 : Dbl.ofUInt64 1 = .fin ((1 : Nat) : ℚ) := Dbl.ofUInt64_exact 1 (by norm_num)
  have h2 := Dbl.add_of_roundME 9007199254740992 1 (2 ^ 52) 1 (by decide)
  rw [h1]
  norm_num at h2 ⊢
  exact h2

/-- The value `2 ^ 64 - 5` rounds to `2 ^ 64`. -/
theorem Dbl.zero_add_wrapped :
    Dbl.add (.fin 0) (Dbl.ofUInt64 18446744073709551611) = .fin 18446744073709551616 := by
  have h1 : Dbl.ofUInt64 18446744073709551611 = .fin 18446744073709551616 := by
    have := Dbl.round_of_roundME 18446744073709551611 (2 ^ 53) 11 (by decide)
    unfold Dbl.ofUInt64
    rw [this]; norm_num
  have h2 : Dbl.round ((18446744073709551616 : Nat) : ℚ) = .fin 18446744073709551616 := by
    have := Dbl.round_of_roundME 18446744073709551616 (2 ^ 52) 12 (by decide)
    rw [this]; norm_num
  rw [h1]
  show Dbl.round _ = _
  norm_num at h2 ⊢
  exact h2

/-! ### `uint64_t` subtraction -/

theorem getMonoTimeNs_lt (ts : ClockReading) (t : Nat) (h : getMonoTimeNs ts = .ok t) :
    t < 2 ^ 64 := by
  unfold getMonoTimeNs at h
  split_ifs at h with hs
  injection h with h
  subst h
  norm_num
  omega

theorem uint64_sub_eq_zero (now b : Nat) (hn : now < 2 ^ 64) (hb : b < 2 ^ 64) :
    (((now : Int) - (b : Int)) % 2 ^ 64).toNat < 1 ↔ now = b := by
  norm_num at hn hb ⊢
  omega

theorem uint64_sub_wrap (now b : Nat) (hb : b < 2 ^ 64) (h : now < b) :
    (((now : Int) - (b : Int)) % 2 ^ 64).toNat = 2 ^ 64 - (b - now) := by
  norm_num at hb ⊢
  omega

/-! ### `Runtime::begin`, `Runtime::record` -/

theorem Runtime.begin_ok (r : Runtime) (ts : ClockReading) (h : (r.begin ts).2 = none) :
    ∃ t, getMonoTimeNs ts = .ok t ∧
      (r.begin ts).1 = { r with mWarmupCountRemaining := r.mWarmupCount, mBeginTime := t } := by
  unfold Runtime.begin at h ⊢
  cases hg : getMonoTimeNs ts with
  | error msg => rw [hg] at h; simp at h
  | ok t => exact ⟨t, rfl, rfl⟩

/-- The interval `record` measures: `currentTime - mBeginTime` in `uint64_t`. -/
theorem Runtime.record_cases (r : Runtime) (ts : ClockReading) (n : Nat)
    (h : (r.record ts n).2 = none) :
    ∃ t δ, getMonoTimeNs ts = .ok t ∧ δ = (((t : Int) - (r.mBeginTime : Int)) % 2 ^ 64).toNat ∧
      1 ≤ δ ∧
      (r.record ts n).1 =
        if r.mWarmupCountRemaining = 0 then
          { r with mBeginTime := t, mCount := r.mCount.add (Dbl.ofUInt64 n),
                   mSum := r.mSum.add (Dbl.ofUInt64 δ) }
        else { r with mBeginTime := t, mWarmupCountRemaining := r.mWarmupCountRemaining - 1 } := by
  unfold Runtime.record at h ⊢
  cases hg : getMonoTimeNs ts with
  | error msg => rw [hg] at h; simp at h
  | ok t =>
    rw [hg] at h
    simp only at h ⊢
    by_cases hz : (((t : Int) - (r.mBeginTime : Int)) % 2 ^ 64).toNat < 1
    · rw [if_pos hz] at h; simp at h
    · refine ⟨t, _, rfl, rfl, by omega, ?_⟩
      rw [if_neg hz]
      by_cases hw : r.mWarmupCountRemaining = 0
      · simp [hw]
      · simp [hw]

theorem Runtime.recordAll_append (r : Runtime) (l1 l2 : List (ClockReading × Nat))
    (h : (Runtime.recordAll r l1).2 = none) :
    Runtime.recordAll r (l1 ++ l2) = Runtime.recordAll (Runtime.recordAll r l1).1 l2 := by
  induction l1 generalizing r with
  | nil => rfl
  | cons call rest ih =>
    simp only [List.cons_append, Runtime.recordAll] at h ⊢
    rcases hrec : r.record call.1 call.2 with ⟨r1, _ | msg⟩
    · rw [hrec] at h
      simp only at h ⊢
      exact ih r1 h
    · rw [hrec] at h; simp at h

theorem Runtime.recordAll_prefix_ok (r : Runtime) (l1 l2 : List (ClockReading × Nat))
    (h : (Runtime.recordAll r (l1 ++ l2)).2 = none) : (Runtime.recordAll r l1).2 = none := by
  induction l1 generalizing r with
  | nil => rfl
  | cons call rest ih =>
    simp only [List.cons_append, Runtime.recordAll] at h ⊢
    rcases hrec : r.record call.1 call.2 with ⟨r1, _ | msg⟩
    · rw [hrec] at h
      simp only at h ⊢
      exact ih r1 h
    · rw [hrec] at h; simp at h

theorem Runtime.recordAll_take_ok (r : Runtime) (calls : List (ClockReading × Nat)) (k : Nat)
    (h : (Runtime.recordAll r calls).2 = none) : (Runtime.recordAll r (calls.take k)).2 = none := by
  rw [← List.take_append_drop k calls] at h
  exact Runtime.recordAll_prefix_ok r _ _ h

/-- While the countdown lasts, `record` calls that do not throw leave both accumulators
as they were. -/
theorem Runtime.recordAll_warm (l : List (ClockReading × Nat)) (r : Runtime)
    (h : (Runtime.recordAll r l).2 = none) (hk : l.length ≤ r.mWarmupCountRemaining) :
    (Runtime.recordAll r l).1.mCount = r.mCount ∧ (Runtime.recordAll r l).1.mSum = r.mSum ∧
      (Runtime.recordAll r l).1.mWarmupCountRemaining = r.mWarmupCountRemaining - l.length := by
  induction l generalizing r with
  | nil => simp [Runtime.recordAll]
  | cons call rest ih =>
    simp only [Runtime.recordAll] at h ⊢
    rcases hrec : r.record call.1 call.2 with ⟨r1, _ | msg⟩
    · rw [hrec] at h
      simp only at h ⊢
      have hok : (r.record call.1 call.2).2 = none := by rw [hrec]
      obtain ⟨t, δ, -, -, -, hst⟩ := Runtime.record_cases r call.1 call.2 hok
      simp only [List.length_cons] at hk
      have hne : r.mWarmupCountRemaining ≠ 0 := by omega
      rw [if_neg hne, hrec] at hst
      simp only at hst
      subst hst
      have := ih _ h (by simp only; omega)
      simp only at this
      refine ⟨this.1, this.2.1, ?_⟩
      rw [this.2.2, List.length_cons]; omega
    · rw [hrec] at h; simp at h

theorem checkpointAhead_eq : checkpointAhead =
    { mWarmupCount := 0, mWarmupCountRemaining := 0, mBeginTime := 10,
      mCount := .fin 0, mSum := .fin 0 } := by
  simp [checkpointAhead, Runtime.begin, Runtime.new, getMonoTimeNs]

theorem saturatedTimer_eq : saturatedTimer =
    { mWarmupCount := 0, mWarmupCountRemaining := 0, mBeginTime := 9007199254740992,
      mCount := .fin 9007199254740992, mSum := .fin 9007199254740992 } := by
  have ht : ((9007199 : Int) * 1000000000 + 254740992) % 2 ^ 64 = 9007199254740992 := by
    norm_num
  simp [saturatedTimer, Runtime.begin, Runtime.record, Runtime.new, getMonoTimeNs, ht,
    Dbl.zero_add_two_pow_53]

theorem zeroCountTimer_eq : zeroCountTimer =
    { mWarmupCount := 0, mWarmupCountRemaining := 0, mBeginTime := 5,
      mCount := .fin 0, mSum := .fin 5 } := by
  simp [zeroCountTimer, Runtime.begin, Runtime.record, Runtime.new, getMonoTimeNs,
    Dbl.zero_add_zero, Dbl.zero_add_five]

theorem timerWith_mCount (n : Nat) (h : n ≤ 2 ^ 53) : (timerWith n).mCount = .fin n := by
  have h2 := Dbl.add_exact 0 n (by omega)
  simp only [Nat.cast_zero, zero_add] at h2
  simp [timerWith, Runtime.record, Runtime.begin, Runtime.new, getMonoTimeNs,
    Dbl.ofUInt64_exact n h, h2]

theorem timerWith_mSum (n : Nat) : (timerWith n).mSum = .fin 1 := by
  simp [timerWith, Runtime.record, Runtime.begin, Runtime.new, getMonoTimeNs,
    Dbl.zero_add_one]

/-- Three integer-valued `double`s whose sum is at most `2 ^ 53` add up exactly. -/
theorem Dbl.add_add_exact (x y z : Nat) (h : x + y + z ≤ 2 ^ 53) :
    Dbl.add (Dbl.add (.fin x) (.fin y)) (.fin z) = .fin ((x + y + z : Nat) : ℚ) := by
  rw [Dbl.add_exact x y (by omega), Dbl.add_exact (x + y) z h]

/-- The mean of a Timer with finite accumulators is the `double` nearest to the exact
quotient. -/
theorem Runtime.am_fin (r : Runtime) (c s : ℚ) (hc : r.mCount = .fin c) (hs : r.mSum = .fin s) :
    r.am = Dbl.round (s / Max.max c 1) := by
  unfold Runtime.am Dbl.max
  rw [hc, hs]
  by_cases h : c < 1
  · have hm : Max.max c 1 = 1 := max_eq_right (le_of_lt h)
    simp [Dbl.lt, Dbl.div, h, hm]
  · have hm : Max.max c 1 = c := max_eq_left (not_lt.mp h)
    have hc0 : c ≠ 0 := by intro h0; apply h; rw [h0]; norm_num
    simp [Dbl.lt, Dbl.div, h, hm, hc0]

theorem Dbl.max_one_ne_zero (x : Dbl) : Dbl.max x (.fin 1) ≠ .fin 0 := by
  unfold Dbl.max
  cases x with
  | fin c =>
    by_cases h : c < 1
    · simp [Dbl.lt, h]
    · have hc0 : c ≠ 0 := by intro h0; apply h; rw [h0]; norm_num
      simp [Dbl.lt, h, hc0]
  | inf => simp [Dbl.lt]
  | nan => simp [Dbl.lt]

/-! ### The aggregation loop -/

theorem aggregate_mWarmup (ts : List Runtime) (g : Runtime) :
    (aggregate g ts).mWarmupCount = g.mWarmupCount := by
  induction ts generalizing g with
  | nil => rfl
  | cons t rest ih =>
    show (aggregate (g.add t) rest).mWarmupCount = _
    rw [ih]; rfl

/-- When every count and every sum is a non-negative integer and the totals do not exceed
`2 ^ 53`, the aggregate holds the exact totals. -/
theorem aggregate_exact (cnt sm : Runtime → Nat) (ts : List Runtime) (g : Runtime)
    (hc : ∀ t ∈ g :: ts, t.mCount = .fin (cnt t)) (hs : ∀ t ∈ g :: ts, t.mSum = .fin (sm t))
    (hcb : cnt g + (ts.map cnt).sum ≤ 2 ^ 53) (hsb : sm g + (ts.map sm).sum ≤ 2 ^ 53) :
    (aggregate g ts).mCount = .fin ((cnt g + (ts.map cnt).sum : Nat) : ℚ) ∧
    (aggregate g ts).mSum = .fin ((sm g + (ts.map sm).sum : Nat) : ℚ) := by
  induction ts generalizing g cnt sm with
  | nil =>
    simp only [aggregate, List.foldl_nil, List.map_nil, List.sum_nil, add_zero]
    exact ⟨hc g (List.mem_cons_self _ _), hs g (List.mem_cons_self _ _)⟩
  | cons t rest ih =>
    simp only [List.map_cons, List.sum_cons] at hcb hsb ⊢
    have hgc := hc g (List.mem_cons_self _ _)
    have hgs := hs g (List.mem_cons_self _ _)
    have htc := hc t (List.mem_cons_of_mem _ (List.mem_cons_self _ _))
    have hts := hs t (List.mem_cons_of_mem _ (List.mem_cons_self _ _))
    have hgtc : (g.add t).mCount = .fin ((cnt g + cnt t : Nat) : ℚ) := by
      simp only [Runtime.add, hgc, htc]
      exact Dbl.add_exact _ _ (by omega)
    have hgts : (g.add t).mSum = .fin ((sm g + sm t : Nat) : ℚ) := by
      simp only [Runtime.add, hgs, hts]
      exact Dbl.add_exact _ _ (by omega)
    -- re-anchor the integer readings at the merged Timer
    let cnt1 : Runtime → Nat := fun r => if r = g.add t then cnt g + cnt t else cnt r
    let sm1 : Runtime → Nat := fun r => if r = g.add t then sm g + sm t else sm r
    have hc1 : ∀ r ∈ g.add t :: rest, r.mCount = .fin (cnt1 r) := by
      intro r hr
      by_cases he : r = g.add t
      · simp only [cnt1, if_pos he]; rw [he]; exact hgtc
      · simp only [cnt1, if_neg he]
        rcases List.mem_cons.mp hr with h | h
        · exact absurd h he
        · exact hc r (List.mem_cons_of_mem _ (List.mem_cons_of_mem _ h))
    have hs1 : ∀ r ∈ g.add t :: rest, r.mSum = .fin (sm1 r) := by
      intro r hr
      by_cases he : r = g.add t
      · simp only [sm1, if_pos he]; rw [he]; exact hgts
      · simp only [sm1, if_neg he]
        rcases List.mem_cons.mp hr with h | h
        · exact absurd h he
        · exact hs r (List.mem_cons_of_mem _ (List.mem_cons_of_mem _ h))
    have hmapc : (rest.map cnt1).sum = (rest.map cnt).sum := by
      congr 1
      apply List.map_congr_left
      intro r hr
      by_cases he : r = g.add t
      · simp only [cnt1, if_pos he]
        have h1 := hc r (List.mem_cons_of_mem _ (List.mem_cons_of_mem _ hr))
        rw [he, hgtc] at h1
        have : ((cnt g + cnt t : Nat) : ℚ) = (cnt (g.add t) : ℚ) := by simpa using h1
        rw [he]; exact_mod_cast this
      · simp only [cnt1, if_neg he]
    have hmaps : (rest.map sm1).sum = (rest.map sm).sum := by
      congr 1
      apply List.map_congr_left
      intro r hr
      by_cases he : r = g.add t
      · simp only [sm1, if_pos he]
        have h1 := hs r (List.mem_cons_of_mem _ (List.mem_cons_of_mem _ hr))
        rw [he, hgts] at h1
        have : ((sm g + sm t : Nat) : ℚ) = (sm (g.add t) : ℚ) := by simpa using h1
        rw [he]; exact_mod_cast this
      · simp only [sm1, if_neg he]
    have hg1c : cnt1 (g.add t) = cnt g + cnt t := by simp [cnt1]
    have hg1s : sm1 (g.add t) = sm g + sm t := by simp [sm1]
    have := ih cnt1 sm1 (g.add t) hc1 hs1 (by rw [hg1c, hmapc]; omega)
      (by rw [hg1s, hmaps]; omega)
    rw [hg1c, hmapc, hg1s, hmaps] at this
    show (aggregate (g.add t) rest).mCount = _ ∧ (aggregate (g.add t) rest).mSum = _
    rw [this.1, this.2]
    constructor <;> congr 2 <;> omega

theorem Dbl.isNat_fin (n : Nat) : Dbl.IsNat (.fin (n : ℚ)) := by
  simp [Dbl.IsNat, Dbl.toNat]

theorem Dbl.toNat_fin (n : Nat) : Dbl.toNat (.fin (n : ℚ)) = n := by
  simp [Dbl.toNat]

/-- The count and the sum of an aggregate, when all counts and sums are whole numbers with
totals of at most `2 ^ 53`. -/
theorem aggregate_total (g : Runtime) (ts : List Runtime)
    (hnat : ∀ t ∈ g :: ts, t.mCount.IsNat ∧ t.mSum.IsNat)
    (hcb : ((g :: ts).map fun t => t.mCount.toNat).sum ≤ 2 ^ 53)
    (hsb : ((g :: ts).map fun t => t.mSum.toNat).sum ≤ 2 ^ 53) :
    (aggregate g ts).mCount = .fin ((((g :: ts).map fun t => t.mCount.toNat).sum : Nat) : ℚ) ∧
    (aggregate g ts).mSum = .fin ((((g :: ts).map fun t => t.mSum.toNat).sum : Nat) : ℚ) := by
  simp only [List.map_cons, List.sum_cons] at hcb hsb ⊢
  exact aggregate_exact (fun t => t.mCount.toNat) (fun t => t.mSum.toNat) ts g
    (fun t ht => (hnat t ht).1) (fun t ht => (hnat t ht).2) hcb hsb

/-! ## Claims about `Runtime` -/

/-- C1 (amended): after `begin()`, as long as no `record` call throws (every measured
interval is positive), the first `mWarmupCount` calls leave `mCount` and `mSum` as they
were; the call after them changes `mSum` when `mSum` held a whole number below `2 ^ 53`,
and changes `mCount` when moreover its `elementCount` is positive and `mCount` held a whole
number below `2 ^ 53`. -/
theorem warmup_exactness (r : Runtime) (ts0 : ClockReading) (calls : List (ClockReading × Nat))
    (hbegin : (r.begin ts0).2 = none)
    (hcalls : (Runtime.recordAll (r.begin ts0).1 calls).2 = none) :
    (∀ k, k ≤ r.mWarmupCount →
      (Runtime.recordAll (r.begin ts0).1 (calls.take k)).1.mCount = r.mCount ∧
      (Runtime.recordAll (r.begin ts0).1 (calls.take k)).1.mSum = r.mSum) ∧
    (∀ call, calls[r.mWarmupCount]? = some call →
      ((∃ s : Nat, s < 2 ^ 53 ∧ r.mSum = .fin s) →
        (Runtime.recordAll (r.begin ts0).1 (calls.take (r.mWarmupCount + 1))).1.mSum ≠ r.mSum) ∧
      ((∃ c : Nat, c < 2 ^ 53 ∧ r.mCount = .fin c) → 0 < call.2 →
        (Runtime.recordAll (r.begin ts0).1 (calls.take (r.mWarmupCount + 1))).1.mCount
          ≠ r.mCount)) := by
  obtain ⟨t0, -, hb⟩ := Runtime.begin_ok r ts0 hbegin
  have hwarm : ∀ k, k ≤ r.mWarmupCount →
      (Runtime.recordAll (r.begin ts0).1 (calls.take k)).1.mCount = r.mCount ∧
      (Runtime.recordAll (r.begin ts0).1 (calls.take k)).1.mSum = r.mSum ∧
      (Runtime.recordAll (r.begin ts0).1 (calls.take k)).1.mWarmupCountRemaining
        = r.mWarmupCount - (calls.take k).length := by
    intro k hk
    have hok := Runtime.recordAll_take_ok _ calls k hcalls
    have hlen : (calls.take k).length ≤ (r.begin ts0).1.mWarmupCountRemaining := by
      rw [hb]; simp only [List.length_take]; omega
    have := Runtime.recordAll_warm (calls.take k) _ hok hlen
    rw [hb] at this ⊢
    simpa using this
  refine ⟨fun k hk => ⟨(hwarm k hk).1, (hwarm k hk).2.1⟩, ?_⟩
  intro call hcall
  have hlt : r.mWarmupCount < calls.length := by
    by_contra hge
    rw [List.getElem?_eq_none (by omega)] at hcall
    exact Option.noConfusion hcall
  have htake : calls.take (r.mWarmupCount + 1) = calls.take r.mWarmupCount ++ [call] := by
    rw [List.take_succ, hcall]; rfl
  obtain ⟨hc, hs, hrem⟩ := hwarm r.mWarmupCount le_rfl
  have hrem0 : (Runtime.recordAll (r.begin ts0).1
      (calls.take r.mWarmupCount)).1.mWarmupCountRemaining = 0 := by
    rw [hrem, List.length_take]; omega
  have hok1 := Runtime.recordAll_take_ok _ calls (r.mWarmupCount + 1) hcalls
  have hokw := Runtime.recordAll_take_ok _ calls r.mWarmupCount hcalls
  rw [htake, Runtime.recordAll_append _ _ _ hokw] at hok1
  rw [htake, Runtime.recordAll_append _ _ _ hokw]
  set rW := (Runtime.recordAll (r.begin ts0).1 (calls.take r.mWarmupCount)).1 with hrW
  have hstep : Runtime.recordAll rW [call] = rW.record call.1 call.2 := by
    simp only [Runtime.recordAll]
    rcases hrec : rW.record call.1 call.2 with ⟨r1, _ | msg⟩ <;> rfl
  rw [hstep] at hok1 ⊢
  obtain ⟨t, δ, -, -, hδ, hst⟩ := Runtime.record_cases rW call.1 call.2 hok1
  rw [if_pos hrem0] at hst
  rw [hst]
  simp only
  rw [hc, hs]
  constructor
  · rintro ⟨s, hs53, hse⟩
    rw [hse]
    exact Dbl.add_ne_self s hs53 δ hδ
  · rintro ⟨c, hc53, hce⟩ hpos
    rw [hce]
    exact Dbl.add_ne_self c hc53 call.2 hpos

/-- C1, witness: warmup count 2, `begin()` at 0 ns, then `record(7)` at 5, 9 and 12 ns.
The first two calls leave both accumulators at 0 and the third changes both. -/
theorem warmup_exactness_witness :
    ((Runtime.new 2).begin ⟨0, 0, 0⟩).2 = none ∧
    (Runtime.recordAll ((Runtime.new 2).begin ⟨0, 0, 0⟩).1
      [(⟨0, 0, 5⟩, 7), (⟨0, 0, 9⟩, 7), (⟨0, 0, 12⟩, 7)]).2 = none ∧
    ((∀ k, k ≤ 2 →
      (Runtime.recordAll ((Runtime.new 2).begin ⟨0, 0, 0⟩).1
        (List.take k [(⟨0, 0, 5⟩, 7), (⟨0, 0, 9⟩, 7), (⟨0, 0, 12⟩, 7)])).1.mCount = .fin 0 ∧
      (Runtime.recordAll ((Runtime.new 2).begin ⟨0, 0, 0⟩).1
        (List.take k [(⟨0, 0, 5⟩, 7), (⟨0, 0, 9⟩, 7), (⟨0, 0, 12⟩, 7)])).1.mSum = .fin 0) ∧
     (Runtime.recordAll ((Runtime.new 2).begin ⟨0, 0, 0⟩).1
        (List.take 3 [(⟨0, 0, 5⟩, 7), (⟨0, 0, 9⟩, 7), (⟨0, 0, 12⟩, 7)])).1.mSum ≠ .fin 0 ∧
     (Runtime.recordAll ((Runtime.new 2).begin ⟨0, 0, 0⟩).1
        (List.take 3 [(⟨0, 0, 5⟩, 7), (⟨0, 0, 9⟩, 7), (⟨0, 0, 12⟩, 7)])).1.mCount ≠ .fin 0) := by
  have hb : ((Runtime.new 2).begin ⟨0, 0, 0⟩).2 = none := by decide
  have hc : (Runtime.recordAll ((Runtime.new 2).begin ⟨0, 0, 0⟩).1
      [(⟨0, 0, 5⟩, 7), (⟨0, 0, 9⟩, 7), (⟨0, 0, 12⟩, 7)]).2 = none := by decide
  have h := warmup_exactness (Runtime.new 2) ⟨0, 0, 0⟩
    [(⟨0, 0, 5⟩, 7), (⟨0, 0, 9⟩, 7), (⟨0, 0, 12⟩, 7)] hb hc
  refine ⟨hb, hc, h.1, ?_, ?_⟩
  · exact (h.2 (⟨0, 0, 12⟩, 7) rfl).1 ⟨0, by norm_num, by simp [Runtime.new]⟩
  · exact (h.2 (⟨0, 0, 12⟩, 7) rfl).2 ⟨0, by norm_num, by simp [Runtime.new]⟩ (by norm_num)

/-- C1, counterexample.  With warmup count 0 the first `record` call after `begin()` is
the one that must change both accumulators.  First: `Runtime(0)`, `begin()` at 0 ns,
`record(0)` at 5 ns; the interval is positive and `mCount` is still 0.  Second: a Timer
that recorded `2 ^ 53` elements in `2 ^ 53` ns, then `begin()` at `2 ^ 53` ns and
`record(1)` one nanosecond later; both accumulators are what they were, `2 ^ 53 + 1` not
being a `double`. -/
theorem warmup_exactness_counterexample :
    (((Runtime.new 0).begin ⟨0, 0, 0⟩).2 = none ∧
     (Runtime.recordAll ((Runtime.new 0).begin ⟨0, 0, 0⟩).1 [(⟨0, 0, 5⟩, 0)]).2 = none ∧
     (Runtime.recordAll ((Runtime.new 0).begin ⟨0, 0, 0⟩).1
        (List.take (0 + 1) [(⟨0, 0, 5⟩, 0)])).1.mCount = (Runtime.new 0).mCount) ∧
    (saturatedTimer.mWarmupCount = 0 ∧
     (saturatedTimer.begin ⟨0, 9007199, 254740992⟩).2 = none ∧
     (Runtime.recordAll (saturatedTimer.begin ⟨0, 9007199, 254740992⟩).1
        [(⟨0, 9007199, 254740993⟩, 1)]).2 = none ∧
     (Runtime.recordAll (saturatedTimer.begin ⟨0, 9007199, 254740992⟩).1
        (List.take (0 + 1) [(⟨0, 9007199, 254740993⟩, 1)])).1.mCount = saturatedTimer.mCount ∧
     (Runtime.recordAll (saturatedTimer.begin ⟨0, 9007199, 254740992⟩).1
        (List.take (0 + 1) [(⟨0, 9007199, 254740993⟩, 1)])).1.mSum = saturatedTimer.mSum) := by
  have ht : ((9007199 : Int) * 1000000000 + 254740992) % 2 ^ 64 = 9007199254740992 := by
    norm_num
  have ht1 : ((9007199 : Int) * 1000000000 + 254740993) % 2 ^ 64 = 9007199254740993 := by
    norm_num
  refine ⟨⟨by decide, by decide, ?_⟩, ?_, ?_, ?_, ?_, ?_⟩
  · simp [Runtime.recordAll, Runtime.record, Runtime.begin, Runtime.new, getMonoTimeNs,
      Dbl.zero_add_zero]
  · rw [saturatedTimer_eq]
  · rw [saturatedTimer_eq]; rfl
  · rw [saturatedTimer_eq]
    simp [Runtime.recordAll, Runtime.record, Runtime.begin, getMonoTimeNs, ht, ht1]
  · rw [saturatedTimer_eq]
    simp [Runtime.recordAll, Runtime.record, Runtime.begin, getMonoTimeNs, ht, ht1,
      Dbl.absorb_one]
  · rw [saturatedTimer_eq]
    simp [Runtime.recordAll, Runtime.record, Runtime.begin, getMonoTimeNs, ht, ht1,
      Dbl.absorb_one]

/-- C2 (amended): with the clock reading `now` and the checkpoint `mBeginTime` both
`uint64_t`, `record` throws "zero runtime" exactly when `now = mBeginTime`, and then leaves
`mCount`, `mSum` and the warmup countdown untouched.  A reading below the checkpoint does
not throw: the unsigned difference is `2 ^ 64 - (mBeginTime - now)`, which is positive,
and once warmup is over it is added to `mSum` like any other interval. -/
theorem record_zero_interval (r : Runtime) (ts : ClockReading) (n now : Nat)
    (hclock : getMonoTimeNs ts = .ok now) (hbt : r.mBeginTime < 2 ^ 64) :
    ((r.record ts n).2 = some "zero runtime" ↔ now = r.mBeginTime) ∧
    ((r.record ts n).2 = none ↔ now ≠ r.mBeginTime) ∧
    (now = r.mBeginTime →
      (r.record ts n).1.mCount = r.mCount ∧ (r.record ts n).1.mSum = r.mSum ∧
      (r.record ts n).1.mWarmupCountRemaining = r.mWarmupCountRemaining) ∧
    (now < r.mBeginTime → r.mWarmupCountRemaining = 0 →
      (r.record ts n).1.mCount = r.mCount.add (Dbl.ofUInt64 n) ∧
      (r.record ts n).1.mSum = r.mSum.add (Dbl.ofUInt64 (2 ^ 64 - (r.mBeginTime - now)))) := by
  have hnow := getMonoTimeNs_lt ts now hclock
  have hz := uint64_sub_eq_zero now r.mBeginTime hnow hbt
  unfold Runtime.record
  rw [hclock]
  simp only
  by_cases heq : now = r.mBeginTime
  · have hlt := hz.mpr heq
    rw [if_pos hlt]
    simp [heq]
  · have hlt : ¬ _ := fun h => heq (hz.mp h)
    rw [if_neg hlt]
    refine ⟨?_, ?_, ?_, ?_⟩
    · by_cases hw : r.mWarmupCountRemaining = 0 <;> simp [hw, heq]
    · by_cases hw : r.mWarmupCountRemaining = 0 <;> simp [hw, heq]
    · intro h; exact absurd h heq
    · intro hlt' hw
      rw [uint64_sub_wrap now r.mBeginTime hbt hlt']
      simp [hw]

/-- C2, witness: a Timer whose checkpoint is 10 ns, read again at 10 ns, throws and keeps
its accumulators. -/
theorem record_zero_interval_witness :
    getMonoTimeNs ⟨0, 0, 10⟩ = .ok 10 ∧ checkpointAhead.mBeginTime < 2 ^ 64 ∧
    (checkpointAhead.record ⟨0, 0, 10⟩ 5).2 = some "zero runtime" ∧
    (checkpointAhead.record ⟨0, 0, 10⟩ 5).1.mCount = checkpointAhead.mCount ∧
    (checkpointAhead.record ⟨0, 0, 10⟩ 5).1.mSum = checkpointAhead.mSum := by
  have hb : checkpointAhead.mBeginTime < 2 ^ 64 := by
    rw [checkpointAhead_eq]; norm_num
  have hbt : checkpointAhead.mBeginTime = 10 := by rw [checkpointAhead_eq]
  have h := record_zero_interval checkpointAhead ⟨0, 0, 10⟩ 5 10 rfl hb
  exact ⟨rfl, hb, h.1.mpr hbt.symm, (h.2.2.1 hbt.symm).1, (h.2.2.1 hbt.symm).2.1⟩

/-- C2, counterexample: `begin()` at 10 ns, then a clock reading of 5 ns, so
`now ≤ mBeginTime`; `record(1)` does not throw, `mCount` goes from 0 to 1 and `mSum` from 0
to `2 ^ 64` (the `double` nearest to the wrapped difference `2 ^ 64 - 5`). -/
theorem record_zero_interval_counterexample :
    getMonoTimeNs ⟨0, 0, 5⟩ = .ok 5 ∧ checkpointAhead.mBeginTime = 10 ∧
    (checkpointAhead.record ⟨0, 0, 5⟩ 1).2 = none ∧
    checkpointAhead.mCount = .fin 0 ∧
    (checkpointAhead.record ⟨0, 0, 5⟩ 1).1.mCount = .fin 1 ∧
    checkpointAhead.mSum = .fin 0 ∧
    (checkpointAhead.record ⟨0, 0, 5⟩ 1).1.mSum = .fin 18446744073709551616 := by
  have h5 : ((5 : Int) - 10) % 2 ^ 64 = 18446744073709551611 := by norm_num
  rw [checkpointAhead_eq]
  refine ⟨rfl, rfl, ?_, rfl, ?_, rfl, ?_⟩
  · simp [Runtime.record, getMonoTimeNs, h5]
  · simp [Runtime.record, getMonoTimeNs, Dbl.zero_add_one]
  · simp [Runtime.record, getMonoTimeNs, h5, Dbl.zero_add_wrapped]

/-- C3 (amended): when the counts and the sums of `A`, `B`, `C` are whole numbers whose
totals are at most `2 ^ 53`, `A.add(B).add(C)`, `A.add(C).add(B)` and `B.add(A).add(C)`
all hold the exact totals; under the same condition on the Timers involved, the aggregate
`main` builds is the same for every order of the threads; and `A.add(B).add(C)` and
`B.add(A).add(C)` agree for all Timers whatsoever. -/
theorem merge_order (A B C : Runtime) (a b c sa sb sc : Nat)
    (hA : A.mCount = .fin a) (hB : B.mCount = .fin b) (hC : C.mCount = .fin c)
    (hAs : A.mSum = .fin sa) (hBs : B.mSum = .fin sb) (hCs : C.mSum = .fin sc)
    (hcount : a + b + c ≤ 2 ^ 53) (hsum : sa + sb + sc ≤ 2 ^ 53) :
    (((A.add B).add C).mCount = .fin ((a + b + c : Nat) : ℚ) ∧
     ((A.add C).add B).mCount = .fin ((a + b + c : Nat) : ℚ) ∧
     ((B.add A).add C).mCount = .fin ((a + b + c : Nat) : ℚ)) ∧
    (((A.add B).add C).mSum = .fin ((sa + sb + sc : Nat) : ℚ) ∧
     ((A.add C).add B).mSum = .fin ((sa + sb + sc : Nat) : ℚ) ∧
     ((B.add A).add C).mSum = .fin ((sa + sb + sc : Nat) : ℚ)) ∧
    (∀ (g : Runtime) (ts ts' : List Runtime), ts.Perm ts' →
      (∀ t ∈ g :: ts, t.mCount.IsNat ∧ t.mSum.IsNat) →
      ((g :: ts).map fun t => t.mCount.toNat).sum ≤ 2 ^ 53 →
      ((g :: ts).map fun t => t.mSum.toNat).sum ≤ 2 ^ 53 →
      (aggregate g ts).mCount = (aggregate g ts').mCount ∧
      (aggregate g ts).mSum = (aggregate g ts').mSum) ∧
    (∀ X Y Z : Runtime, ((X.add Y).add Z).mCount = ((Y.add X).add Z).mCount ∧
      ((X.add Y).add Z).mSum = ((Y.add X).add Z).mSum) := by
  refine ⟨?_, ?_, ?_, ?_⟩
  · simp only [Runtime.add, hA, hB, hC]
    refine ⟨Dbl.add_add_exact a b c hcount, ?_, ?_⟩
    · rw [Dbl.add_add_exact a c b (by omega)]; congr 2; omega
    · rw [Dbl.add_add_exact b a c (by omega)]; congr 2; omega
  · simp only [Runtime.add, hAs, hBs, hCs]
    refine ⟨Dbl.add_add_exact sa sb sc hsum, ?_, ?_⟩
    · rw [Dbl.add_add_exact sa sc sb (by omega)]; congr 2; omega
    · rw [Dbl.add_add_exact sb sa sc (by omega)]; congr 2; omega
  · intro g ts ts' hperm hnat hcb hsb
    have hp : (g :: ts).Perm (g :: ts') := List.Perm.cons g hperm
    have hcs : ((g :: ts').map fun t => t.mCount.toNat).sum
        = ((g :: ts).map fun t => t.mCount.toNat).sum :=
      ((hp.map _).sum_eq).symm
    have hss : ((g :: ts').map fun t => t.mSum.toNat).sum
        = ((g :: ts).map fun t => t.mSum.toNat).sum :=
      ((hp.map _).sum_eq).symm
    have hnat' : ∀ t ∈ g :: ts', t.mCount.IsNat ∧ t.mSum.IsNat :=
      fun t ht => hnat t (hp.mem_iff.mpr ht)
    have h1 := aggregate_total g ts hnat hcb hsb
    have h2 := aggregate_total g ts' hnat' (by rw [hcs]; exact hcb) (by rw [hss]; exact hsb)
    rw [h1.1, h1.2, h2.1, h2.2, hcs, hss]
    exact ⟨rfl, rfl⟩
  · intro X Y Z
    constructor
    · show (X.mCount.add Y.mCount).add Z.mCount = (Y.mCount.add X.mCount).add Z.mCount
      rw [Dbl.add_swap X.mCount Y.mCount]
    · show (X.mSum.add Y.mSum).add Z.mSum = (Y.mSum.add X.mSum).add Z.mSum
      rw [Dbl.add_swap X.mSum Y.mSum]

/-- C3, witness: three Timers that recorded 1, 2 and 3 elements in 1 ns each. -/
theorem merge_order_witness :
    (timerWith 1).mCount = .fin 1 ∧ (timerWith 2).mCount = .fin 2 ∧
    (timerWith 3).mCount = .fin 3 ∧ (1 : Nat) + 2 + 3 ≤ 2 ^ 53 ∧
    (((timerWith 1).add (timerWith 2)).add (timerWith 3)).mCount = .fin 6 ∧
    (((timerWith 1).add (timerWith 3)).add (timerWith 2)).mCount = .fin 6 ∧
    (((timerWith 2).add (timerWith 1)).add (timerWith 3)).mCount = .fin 6 ∧
    (((timerWith 1).add (timerWith 2)).add (timerWith 3)).mSum = .fin 3 ∧
    (((timerWith 1).add (timerWith 3)).add (timerWith 2)).mSum = .fin 3 ∧
    (((timerWith 2).add (timerWith 1)).add (timerWith 3)).mSum = .fin 3 := by
  have h1 := timerWith_mCount 1 (by norm_num)
  have h2 := timerWith_mCount 2 (by norm_num)
  have h3 := timerWith_mCount 3 (by norm_num)
  have h := merge_order (timerWith 1) (timerWith 2) (timerWith 3) 1 2 3 1 1 1
    h1 h2 h3 (by simpa using timerWith_mSum 1)
    (by simpa using timerWith_mSum 2) (by simpa using timerWith_mSum 3)
    (by norm_num) (by norm_num)
  obtain ⟨⟨c1, c2, c3⟩, ⟨s1, s2, s3⟩, -, -⟩ := h
  norm_num at h1 h2 h3 c1 c2 c3 s1 s2 s3
  exact ⟨h1, h2, h3, by norm_num, c1, c2, c3, s1, s2, s3⟩

/-- C3, counterexample: `A`, `B`, `C` recorded `2 ^ 53`, 1 and 2 elements.
`A.add(B).add(C)` counts `2 ^ 53 + 2` and `A.add(C).add(B)` counts `2 ^ 53 + 4`. -/
theorem merge_order_counterexample :
    (timerWith 9007199254740992).mCount = .fin 9007199254740992 ∧
    (timerWith 1).mCount = .fin 1 ∧ (timerWith 2).mCount = .fin 2 ∧
    (((timerWith 9007199254740992).add (timerWith 1)).add (timerWith 2)).mCount
      = .fin 9007199254740994 ∧
    (((timerWith 9007199254740992).add (timerWith 2)).add (timerWith 1)).mCount
      = .fin 9007199254740996 := by
  have hA := timerWith_mCount 9007199254740992 (by norm_num)
  have hB := timerWith_mCount 1 (by norm_num)
  have hC := timerWith_mCount 2 (by norm_num)
  have s1 := Dbl.add_of_roundME 9007199254740992 1 (2 ^ 52) 1 (by decide)
  have s2 := Dbl.add_of_roundME 9007199254740992 2 (2 ^ 52 + 1) 1 (by decide)
  have s3 := Dbl.add_of_roundME 9007199254740994 1 (2 ^ 52 + 2) 1 (by decide)
  norm_num at hA hB hC s1 s2 s3
  refine ⟨hA, hB, hC, ?_, ?_⟩
  · simp only [Runtime.add, hA, hB, hC, s1, s2]
  · simp only [Runtime.add, hA, hB, hC, s2, s3]

/-- C4 (amended): the mean `println` reports is `mSum / max(mCount, 1)` in `double`
arithmetic; the divisor is never zero; for finite accumulators `c`, `s` the mean is the
`double` nearest to `s / max(c, 1)`, and it is that quotient itself when it is a whole
number up to `2 ^ 53`.  A Timer whose count is 0 reports its sum as the mean: that is 0
exactly when the sum is 0 too, as in a Timer into which nothing was folded (as constructed),
and it is the sum itself when `record(0)` calls were folded in.  Count 4 and sum 400 report
mean 100. -/
theorem mean_computation :
    (∀ (r : Runtime) (name : String),
      (r.println name).2.2 = r.mSum.div (Dbl.max r.mCount (.fin 1))) ∧
    (∀ r : Runtime, Dbl.max r.mCount (.fin 1) ≠ .fin 0) ∧
    (∀ (r : Runtime) (c s : ℚ), r.mCount = .fin c → r.mSum = .fin s →
      r.am = Dbl.round (s / Max.max c 1)) ∧
    (∀ (r : Runtime) (c s q : Nat), r.mCount = .fin c → r.mSum = .fin s →
      s = q * Nat.max c 1 → q ≤ 2 ^ 53 → r.am = .fin q) ∧
    (∀ (r : Runtime) (s : Nat), r.mCount = .fin 0 → r.mSum = .fin s → s ≤ 2 ^ 53 →
      r.am = .fin s ∧ (r.am = .fin 0 ↔ s = 0)) ∧
    (∀ (r : Runtime), r.mCount = .fin 0 → r.mSum = .fin 0 → r.am = .fin 0) ∧
    (∀ w : Nat, (Runtime.new w).am = .fin 0) ∧
    (∀ (r : Runtime), r.mCount = .fin 4 → r.mSum = .fin 400 → r.am = .fin 100) := by
  have hround0 : Dbl.round 0 = .fin 0 := by
    have := Dbl.round_natCast 0 (by norm_num)
    simpa using this
  refine ⟨fun r name => rfl, fun r => Dbl.max_one_ne_zero _, Runtime.am_fin, ?_, ?_, ?_, ?_,
    ?_⟩
  · intro r c s q hc hs hq hq53
    rw [Runtime.am_fin r c s hc hs, ← Dbl.round_natCast q hq53]
    congr 1
    have hm : (1 : ℚ) ≤ Max.max (c : ℚ) 1 := le_max_right _ _
    have hcast : ((Nat.max c 1 : Nat) : ℚ) = Max.max (c : ℚ) 1 := by
      show ((Max.max c 1 : Nat) : ℚ) = _
      push_cast; rfl
    rw [hq, Nat.cast_mul, hcast]
    field_simp
  · intro r s hc hs hs53
    have ham : r.am = .fin s := by
      rw [Runtime.am_fin r 0 s hc hs, ← Dbl.round_natCast s hs53]
      congr 1
      norm_num
    refine ⟨ham, ?_⟩
    rw [ham]
    constructor
    · intro h
      have : (s : ℚ) = 0 := by simpa using h
      exact_mod_cast this
    · rintro rfl; simp
  · intro r hc hs
    rw [Runtime.am_fin r 0 0 hc hs]; simpa using hround0
  · intro w
    rw [Runtime.am_fin (Runtime.new w) 0 0 rfl rfl]; simpa using hround0
  · intro r hc hs
    rw [Runtime.am_fin r 4 400 hc hs]
    have := Dbl.round_natCast 100 (by norm_num)
    norm_num at this ⊢
    exact this

/-- C4, counterexample: `Runtime(0)`, `begin()` at 0 ns, `record(0)` at 5 ns.  The count is
0, no observation having been counted, and the sum is 5; `println` reports the mean 5,
not 0. -/
theorem mean_computation_counterexample :
    zeroCountTimer.mCount = .fin 0 ∧ zeroCountTimer.mSum = .fin 5 ∧
    (zeroCountTimer.println "c").2.2 = .fin 5 ∧
    (zeroCountTimer.println "c").2.2 ≠ .fin 0 := by
  have ham : zeroCountTimer.am = .fin 5 := by
    have hc : zeroCountTimer.mCount = .fin 0 := by rw [zeroCountTimer_eq]
    have hs : zeroCountTimer.mSum = .fin 5 := by rw [zeroCountTimer_eq]
    rw [Runtime.am_fin zeroCountTimer 0 5 hc hs]
    have := Dbl.round_natCast 5 (by norm_num)
    norm_num at this ⊢
    exact this
  refine ⟨by rw [zeroCountTimer_eq], by rw [zeroCountTimer_eq], ham, ?_⟩
  show zeroCountTimer.am ≠ .fin 0
  rw [ham]
  intro h
  simp at h

/-! ### `compareVectors` -/

theorem compareVectors_loop_iff (va vb : List Int) (n i : Nat) :
    compareVectors.loop va vb i n = true ↔
      ∀ j, i ≤ j → j < i + n → va.getD j 0 = vb.getD j 0 := by
  induction n generalizing i with
  | zero =>
    simp only [compareVectors.loop, true_iff]
    intro j h1 h2; omega
  | succ n ih =>
    unfold compareVectors.loop
    by_cases h : va.getD i 0 = vb.getD i 0
    · simp only [ne_eq, h, not_true_eq_false, if_false]
      rw [ih (i + 1)]
      constructor
      · intro hall j h1 h2
        rcases Nat.eq_or_lt_of_le h1 with h3 | h3
        · subst h3; exact h
        · exact hall j h3 (by omega)
      · intro hall j h1 h2
        exact hall j (by omega) (by omega)
    · simp only [ne_eq, h, not_false_eq_true, if_true]
      constructor
      · intro hf; exact absurd hf (by simp)
      · intro hall; exact absurd (hall i le_rfl (by omega)) h

theorem compareVectors_eq_true (va vb : List Int) :
    compareVectors va vb = true ↔
      va.length = vb.length ∧ ∀ j, j < va.length → va.getD j 0 = vb.getD j 0 := by
  unfold compareVectors
  by_cases h : va.length = vb.length
  · simp only [ne_eq, h, not_true_eq_false, if_false, true_and]
    rw [compareVectors_loop_iff]
    constructor
    · intro hall j hj; exact hall j (Nat.zero_le _) (by omega)
    · intro hall j _ hj; exact hall j (by omega)
  · simp [h]

theorem compareVectors_iff_eq (va vb : List Int) : compareVectors va vb = true ↔ va = vb := by
  rw [compareVectors_eq_true]
  constructor
  · rintro ⟨hlen, hall⟩
    apply List.ext_getElem hlen
    intro j h1 h2
    have := hall j h1
    rwa [List.getD_eq_getElem _ _ h1, List.getD_eq_getElem _ _ h2] at this
  · rintro rfl
    exact ⟨rfl, fun _ _ => rfl⟩

theorem compareVectors_self (v : List Int) : compareVectors v v = true :=
  (compareVectors_iff_eq v v).mpr rfl

/-! ### `vector_add_i32_c` -/

theorem vector_add_i32_c_loop_spec (n i : Nat) (m : KernelArgs) :
    (vector_add_i32_c.loop i n m).va = m.va ∧ (vector_add_i32_c.loop i n m).vb = m.vb ∧
    (vector_add_i32_c.loop i n m).vres.length = m.vres.length ∧
    ∀ j, (vector_add_i32_c.loop i n m).vres[j]? =
      if i ≤ j ∧ j < i + n then
        (m.vres[j]?).map fun _ => wrap32 (m.va.getD j 0 + m.vb.getD j 0)
      else m.vres[j]? := by
  induction n generalizing i m with
  | zero =>
    refine ⟨rfl, rfl, rfl, fun j => ?_⟩
    have : ¬ (i ≤ j ∧ j < i + 0) := by omega
    simp only [vector_add_i32_c.loop, if_neg this]
  | succ n ih =>
    unfold vector_add_i32_c.loop
    obtain ⟨h1, h2, h3, h4⟩ := ih (i + 1)
      { m with vres := m.vres.set i (wrap32 (m.va.getD i 0 + m.vb.getD i 0)) }
    refine ⟨h1, h2, by rw [h3]; simp, fun j => ?_⟩
    rw [h4 j]
    simp only [List.getElem?_set]
    by_cases hij : i = j
    · subst hij
      have c1 : ¬ (i + 1 ≤ i ∧ i < i + 1 + n) := by omega
      have c2 : i ≤ i ∧ i < i + (n + 1) := by omega
      rw [if_neg c1, if_pos c2]
      by_cases hlen : i < m.vres.length
      · simp [hlen]
      · simp [hlen, List.getElem?_eq_none (not_lt.mp hlen)]
    · by_cases hc : i + 1 ≤ j ∧ j < i + 1 + n
      · have c2 : i ≤ j ∧ j < i + (n + 1) := by omega
        rw [if_pos hc, if_pos c2]
        simp [hij]
      · have c2 : ¬ (i ≤ j ∧ j < i + (n + 1)) := by omega
        rw [if_neg hc, if_neg c2]
        simp [hij]

theorem vector_add_i32_c_spec (m : KernelArgs)
    (ha : m.vres.length = m.va.length) (hb : m.vres.length = m.vb.length) :
    (vector_add_i32_c m).vres.length = m.vres.length ∧
    ∀ j, j < m.vres.length →
      (vector_add_i32_c m).vres[j]? = some (wrap32 (m.va.getD j 0 + m.vb.getD j 0)) := by
  have hc : ¬ (m.vres.length ≠ m.va.length ∨ m.vres.length ≠ m.vb.length) := by
    rintro (h | h)
    · exact h ha
    · exact h hb
  unfold vector_add_i32_c
  rw [if_neg hc]
  obtain ⟨-, -, h3, h4⟩ := vector_add_i32_c_loop_spec m.va.length 0 m
  refine ⟨h3, fun j hj => ?_⟩
  rw [h4 j, if_pos (by omega)]
  simp [hj]

theorem vector_add_i32_c_frame (m : KernelArgs) :
    (vector_add_i32_c m).va = m.va ∧ (vector_add_i32_c m).vb = m.vb := by
  unfold vector_add_i32_c
  split_ifs
  · exact ⟨rfl, rfl⟩
  · exact ⟨(vector_add_i32_c_loop_spec _ _ _).1, (vector_add_i32_c_loop_spec _ _ _).2.1⟩

theorem zipWith_of_getElem? (v va vb : List Int) (ha : v.length = va.length)
    (hb : v.length = vb.length)
    (h : ∀ j, j < v.length → v[j]? = some (wrap32 (va.getD j 0 + vb.getD j 0))) :
    v = List.zipWith (fun a b => wrap32 (a + b)) va vb := by
  apply List.ext_getElem?
  intro i
  by_cases hi : i < v.length
  · rw [h i hi, List.getElem?_zipWith]
    have hia : i < va.length := by omega
    have hib : i < vb.length := by omega
    rw [List.getElem?_eq_getElem hia, List.getElem?_eq_getElem hib,
      List.getD_eq_getElem _ _ hia, List.getD_eq_getElem _ _ hib]
  · rw [List.getElem?_eq_none (by omega), List.getElem?_eq_none]
    simp only [List.length_zipWith]
    omega

/-- On vectors of one length, `vector_add_i32_c` leaves the elementwise wrapping sum. -/
theorem vector_add_i32_c_zipWith (m : KernelArgs)
    (ha : m.vres.length = m.va.length) (hb : m.vres.length = m.vb.length) :
    (vector_add_i32_c m).vres = List.zipWith (fun a b => wrap32 (a + b)) m.va m.vb := by
  obtain ⟨hlen, hget⟩ := vector_add_i32_c_spec m ha hb
  exact zipWith_of_getElem? _ _ _ (by rw [hlen, ha]) (by rw [hlen, hb])
    (fun j hj => hget j (by rw [← hlen]; exact hj))

/-! ### `vector_add_i32_c_prefetch` -/

theorem vector_add_i32_c_prefetch_loop_spec (n i : Nat) (m : KernelArgs) :
    (vector_add_i32_c_prefetch.loop i n m).va = m.va ∧
    (vector_add_i32_c_prefetch.loop i n m).vb = m.vb ∧
    (vector_add_i32_c_prefetch.loop i n m).vres.length = m.vres.length ∧
    ∀ j, (vector_add_i32_c_prefetch.loop i n m).vres[j]? =
      if i ≤ j ∧ j < i + n then
        (m.vres[j]?).map fun _ => wrap32 (m.va.getD j 0 + m.vb.getD j 0)
      else m.vres[j]? := by
  induction n generalizing i m with
  | zero =>
    refine ⟨rfl, rfl, rfl, fun j => ?_⟩
    have : ¬ (i ≤ j ∧ j < i + 0) := by omega
    simp only [vector_add_i32_c_prefetch.loop, if_neg this]
  | succ n ih =>
    unfold vector_add_i32_c_prefetch.loop
    obtain ⟨h1, h2, h3, h4⟩ := ih (i + 1)
      { m with vres := m.vres.set i (wrap32 (m.va.getD i 0 + m.vb.getD i 0)) }
    refine ⟨h1, h2, by rw [h3]; simp, fun j => ?_⟩
    rw [h4 j]
    simp only [List.getElem?_set]
    by_cases hij : i = j
    · subst hij
      have c1 : ¬ (i + 1 ≤ i ∧ i < i + 1 + n) := by omega
      have c2 : i ≤ i ∧ i < i + (n + 1) := by omega
      rw [if_neg c1, if_pos c2]
      by_cases hlen : i < m.vres.length
      · simp [hlen]
      · simp [hlen, List.getElem?_eq_none (not_lt.mp hlen)]
    · by_cases hc : i + 1 ≤ j ∧ j < i + 1 + n
      · have c2 : i ≤ j ∧ j < i + (n + 1) := by omega
        rw [if_pos hc, if_pos c2]
        simp [hij]
      · have c2 : ¬ (i ≤ j ∧ j < i + (n + 1)) := by omega
        rw [if_neg hc, if_neg c2]
        simp [hij]

/-- On vectors of one length, `vector_add_i32_c_prefetch` leaves the elementwise wrapping
sum. -/
theorem vector_add_i32_c_prefetch_zipWith (m : KernelArgs)
    (ha : m.vres.length = m.va.length) (hb : m.vres.length = m.vb.length) :
    (vector_add_i32_c_prefetch m).vres =
      List.zipWith (fun a b => wrap32 (a + b)) m.va m.vb := by
  have hc : ¬ (m.vres.length ≠ m.va.length ∨ m.vres.length ≠ m.vb.length) := by
    rintro (h | h)
    · exact h ha
    · exact h hb
  unfold vector_add_i32_c_prefetch
  rw [if_neg hc]
  obtain ⟨-, -, h3, h4⟩ := vector_add_i32_c_prefetch_loop_spec m.va.length 0 m
  refine zipWith_of_getElem? _ _ _ (by rw [h3, ha]) (by rw [h3, hb]) (fun j hj => ?_)
  rw [h4 j, if_pos (by omega)]
  have : j < m.vres.length := by rw [← h3]; exact hj
  simp [this]

/-! ### `memset` -/

theorem memset_zero_length (v : List Int) (n : Nat) : (memset_zero v n).length = v.length := by
  simp [memset_zero]

theorem memset_zero_getElem? (v : List Int) (n j : Nat) (hj : j < v.length) :
    (memset_zero v n)[j]? =
      some (if 4 * (j + 1) ≤ n then 0
        else if 4 * j < n then clearLowBytes (v.getD j 0) (n - 4 * j)
        else v.getD j 0) := by
  unfold memset_zero
  rw [List.getElem?_map, List.getElem?_range hj]
  rfl

/-- What the zeroing step does to a buffer of `kVectorSize` elements: the first quarter
becomes zero and the rest is kept. -/
theorem memset_zero_kVectorSize (v : List Int) (hv : v.length = kVectorSize) (j : Nat)
    (hj : j < kVectorSize) :
    (memset_zero v kVectorSize)[j]? = some (if j < 262144 then 0 else v.getD j 0) := by
  rw [memset_zero_getElem? v kVectorSize j (by omega)]
  simp only [kVectorSize] at hj ⊢
  by_cases h : j < 262144
  · rw [if_pos (by omega), if_pos h]
  · rw [if_neg (by omega), if_neg (by omega), if_neg h]

/-! ## Claims about the helpers of sve-demo.cpp -/

/-- C5: `compareVectors(va, vb)` returns true exactly when the two vectors have the same
length and the same value at every index, that is, when they are equal; it returns false
as soon as the lengths differ or some index holds different values, in particular for a
candidate that differs from the reference in exactly one element. -/
theorem compareVectors_sensitivity :
    (∀ va vb : List Int, compareVectors va vb = true ↔
      va.length = vb.length ∧
        ∀ i (h1 : i < va.length) (h2 : i < vb.length), va[i] = vb[i]) ∧
    (∀ va vb : List Int, compareVectors va vb = true ↔ va = vb) ∧
    (∀ va vb : List Int, va.length ≠ vb.length → compareVectors va vb = false) ∧
    (∀ (va vb : List Int) (j : Nat) (h1 : j < va.length) (h2 : j < vb.length),
      va[j] ≠ vb[j] → compareVectors va vb = false) ∧
    (∀ (ref : List Int) (j : Nat) (x : Int) (h : j < ref.length),
      x ≠ ref[j] → compareVectors (ref.set j x) ref = false) := by
  refine ⟨?_, compareVectors_iff_eq, ?_, ?_, ?_⟩
  · intro va vb
    rw [compareVectors_iff_eq]
    constructor
    · rintro rfl; exact ⟨rfl, fun _ _ _ => rfl⟩
    · rintro ⟨hlen, hall⟩
      exact List.ext_getElem hlen hall
  · intro va vb hlen
    rw [← Bool.not_eq_true, compareVectors_iff_eq]
    rintro rfl; exact hlen rfl
  · intro va vb j h1 h2 hne
    rw [← Bool.not_eq_true, compareVectors_iff_eq]
    rintro rfl; exact hne rfl
  · intro ref j x h hne
    rw [← Bool.not_eq_true, compareVectors_iff_eq]
    intro heq
    have h1 : (ref.set j x)[j]? = some x := by
      rw [List.getElem?_set_self]; simp [h]
    rw [heq, List.getElem?_eq_getElem h] at h1
    exact hne (Option.some.inj h1).symm

/-- C7: when `vres`, `va` and `vb` have the same length, `vector_add_i32_c` leaves in every
position `i` of `vres` the 32-bit wrapping sum of `va[i]` and `vb[i]`, and `vres` keeps its
length; when a length disagrees `vres` is left as it was; `va` and `vb` are never
changed. -/
theorem vector_add_i32_c_contract (m : KernelArgs) :
    (m.vres.length = m.va.length → m.vres.length = m.vb.length →
      (vector_add_i32_c m).vres.length = m.vres.length ∧
      (∀ i (ha : i < m.va.length) (hb : i < m.vb.length),
        (vector_add_i32_c m).vres[i]? = some (wrap32 (m.va[i] + m.vb[i]))) ∧
      (vector_add_i32_c m).vres = List.zipWith (fun a b => wrap32 (a + b)) m.va m.vb) ∧
    ((m.vres.length ≠ m.va.length ∨ m.vres.length ≠ m.vb.length) →
      (vector_add_i32_c m).vres = m.vres) ∧
    (vector_add_i32_c m).va = m.va ∧ (vector_add_i32_c m).vb = m.vb := by
  refine ⟨?_, ?_, (vector_add_i32_c_frame m).1, (vector_add_i32_c_frame m).2⟩
  · intro ha hb
    obtain ⟨hlen, hget⟩ := vector_add_i32_c_spec m ha hb
    refine ⟨hlen, ?_, ?_⟩
    · intro i hia hib
      rw [hget i (by omega), List.getD_eq_getElem _ _ hia, List.getD_eq_getElem _ _ hib]
    · exact vector_add_i32_c_zipWith m ha hb
  · intro h
    unfold vector_add_i32_c
    rw [if_pos h]

/-- C7, witness: three elements, the last sum wrapping from `2 ^ 31 - 1` to `-2 ^ 31`. -/
theorem vector_add_i32_c_contract_witness :
    (vector_add_i32_c ⟨[0, 0, 0], [1, -2, 2147483647], [1, 5, 1]⟩).vres
      = [2, 3, -2147483648] ∧
    (vector_add_i32_c ⟨[7, 7], [1, -2, 2147483647], [1, 5, 1]⟩).vres = [7, 7] := by
  constructor
  · rw [((vector_add_i32_c_contract ⟨[0, 0, 0], [1, -2, 2147483647], [1, 5, 1]⟩).1
      rfl rfl).2.2]
    decide
  · exact (vector_add_i32_c_contract ⟨[7, 7], [1, -2, 2147483647], [1, 5, 1]⟩).2.1
      (by decide)

/-- C6: the zeroing step at work on a descriptor whose buffer holds `kVectorSize` ones.
The buffer keeps its length, position 262143 is zeroed, and positions 262144 and 1048575
still hold 1: `memset` was told to clear `kVectorSize` bytes, a quarter of the buffer. -/
theorem zero_result_vectors_stale :
    (zero_result_vectors
      [{ name := "c", fn := fun vres va vb => (vector_add_i32_c ⟨vres, va, vb⟩).vres,
         runtime := Runtime.new kWarmupCount,
         result_vector := List.replicate kVectorSize 1 }]).map
      (fun opd => (opd.result_vector.length, opd.result_vector[262143]?,
        opd.result_vector[262144]?, opd.result_vector[1048575]?))
      = [(1048576, some 0, some 1, some 1)] := by
  have hlen : (List.replicate kVectorSize (1 : Int)).length = kVectorSize := by simp
  simp only [zero_result_vectors, List.map_cons, List.map_nil, memset_zero_length,
    memset_zero_kVectorSize _ hlen 262143 (by norm_num [kVectorSize]),
    memset_zero_kVectorSize _ hlen 262144 (by norm_num [kVectorSize]),
    memset_zero_kVectorSize _ hlen 1048575 (by norm_num [kVectorSize])]
  have hone : ∀ j, j < kVectorSize → (List.replicate kVectorSize (1 : Int)).getD j 0 = 1 := by
    intro j hj
    rw [List.getD_eq_getElem _ _ (by rw [hlen]; exact hj), List.getElem_replicate]
  rw [hone 262144 (by norm_num [kVectorSize]), hone 1048575 (by norm_num [kVectorSize]), hlen]
  have hk : kVectorSize = 1048576 := by norm_num [kVectorSize]
  rw [hk]
  rfl

/-! ### The inner loop -/

/-- A `record` call that reads a time other than the checkpoint does not throw, and moves
the checkpoint to the time read. -/
theorem Runtime.record_ticks (r : Runtime) (ts : ClockReading) (n a b : Nat)
    (hb : getMonoTimeNs ts = .ok b) (ha : r.mBeginTime = a) (ha64 : a < 2 ^ 64) (hne : a ≠ b) :
    (r.record ts n).2 = none ∧ (r.record ts n).1.mBeginTime = b := by
  have hb64 := getMonoTimeNs_lt ts b hb
  have hz := uint64_sub_eq_zero b r.mBeginTime hb64 (by rw [ha]; exact ha64)
  have hnz : ¬ ((((b : Int) - (r.mBeginTime : Int)) % 2 ^ 64).toNat < 1) := by
    intro h; exact hne (by rw [← ha]; exact (hz.mp h).symm)
  unfold Runtime.record
  rw [hb]
  simp only [if_neg hnz]
  by_cases hw : r.mWarmupCountRemaining = 0 <;> simp [hw]

/-- A trial loop that runs to its end made `pollsPassed` kernel calls. -/
theorem trial_loop_next (env : Env) (va vb : List Int) (k : Nat) (ref0 : Option (List Int))
    (n : Nat) (opd : operation_desc_t) (t : Thread) (s : operation_desc_t × Thread)
    (h : trial_loop env va vb k ref0 n opd t = .next s) :
    s.2.trials = t.trials ++ List.replicate (pollsPassed env.gKeepRunning t.flagReads n) k ∧
    s.2.flagReads = t.flagReads + pollsPassed env.gKeepRunning t.flagReads n + 1 ∧
    s.2.clockCalls = t.clockCalls + pollsPassed env.gKeepRunning t.flagReads n ∧
    s.2.i = t.i ∧ s.2.gHasErrors = t.gHasErrors ∧ s.2.randCalls = t.randCalls := by
  induction n generalizing opd t with
  | zero =>
    simp only [trial_loop] at h
    injection h with h
    subst h
    simp [pollsPassed]
  | succ n ih =>
    unfold trial_loop at h
    by_cases hk : env.gKeepRunning t.flagReads = true
    · rw [if_pos hk] at h
      simp only at h
      split at h
      · exact Flow.noConfusion h
      · split at h
        · have := ih _ _ h
          simp only at this
          obtain ⟨h1, h2, h3, h4, h5, h6⟩ := this
          simp only [pollsPassed, if_pos hk]
          refine ⟨?_, ?_, ?_, h4, h5, h6⟩
          · rw [h1, List.append_assoc]
            congr 1
          · rw [h2]; omega
          · rw [h3]; omega
        · exact Flow.noConfusion h
    · rw [if_neg hk] at h
      injection h with h
      subst h
      simp [pollsPassed, hk]

/-- The only `return` inside the trial loop is the one taken on a mismatch; it sets
`gHasErrors`, and descriptor 0 never takes it. -/
theorem trial_loop_ret (env : Env) (va vb : List Int) (k : Nat) (ref0 : Option (List Int))
    (n : Nat) (opd : operation_desc_t) (t : Thread) (x : Exit) (s : operation_desc_t × Thread)
    (h : trial_loop env va vb k ref0 n opd t = .ret x s) :
    x = .error ∧ s.2.gHasErrors = true ∧ ref0 ≠ none := by
  induction n generalizing opd t with
  | zero => simp only [trial_loop] at h; exact Flow.noConfusion h
  | succ n ih =>
    unfold trial_loop at h
    by_cases hk : env.gKeepRunning t.flagReads = true
    · rw [if_pos hk] at h
      simp only at h
      split at h
      · exact Flow.noConfusion h
      · split at h
        · exact ih _ _ h
        · rename_i hcmp
          injection h with hx hs
          subst hx hs
          refine ⟨rfl, rfl, ?_⟩
          intro hnone
          rw [hnone] at hcmp
          exact hcmp (compareVectors_self _)
    · rw [if_neg hk] at h
      exact Flow.noConfusion h

/-- With a clock that ticks, the trial loop throws nothing. -/
theorem trial_loop_no_throw (env : Env) (hclock : ClockTicks env) (va vb : List Int) (k : Nat)
    (ref0 : Option (List Int)) (n : Nat) (opd : operation_desc_t) (t : Thread) (c : Nat)
    (hc : t.clockCalls = c + 1)
    (hbt : getMonoTimeNs (env.clock c) = .ok opd.runtime.mBeginTime)
    (msg : String) (s : operation_desc_t × Thread) :
    trial_loop env va vb k ref0 n opd t ≠ .throw msg s := by
  induction n generalizing opd t c with
  | zero => simp only [trial_loop]; exact fun h => Flow.noConfusion h
  | succ n ih =>
    unfold trial_loop
    by_cases hk : env.gKeepRunning t.flagReads = true
    · rw [if_pos hk]
      simp only
      obtain ⟨a, b, ha, hb, hne⟩ := hclock c
      rw [hbt] at ha
      injection ha with ha
      have ha64 := getMonoTimeNs_lt _ _ hbt
      have hrec := Runtime.record_ticks opd.runtime (env.clock t.clockCalls) kVectorSize
        opd.runtime.mBeginTime b (by rw [hc]; exact hb) rfl ha64 (by rw [ha]; exact hne)
      rw [hrec.1]
      simp only
      split
      · exact ih _ _ (c + 1) (by simp only; omega)
          (by simp only; rw [hrec.2, ← hc]; rw [hc]; exact hb)
      · exact fun h => Flow.noConfusion h
    · rw [if_neg hk]
      exact fun h => Flow.noConfusion h

/-! ### The sweep over the descriptors -/

theorem Runtime.begin_of_ok (r : Runtime) (ts : ClockReading) (a : Nat)
    (h : getMonoTimeNs ts = .ok a) :
    r.begin ts = ({ r with mWarmupCountRemaining := r.mWarmupCount, mBeginTime := a }, none) := by
  unfold Runtime.begin
  rw [h]

/-- A sweep that runs to its end made the kernel calls `sweepTrials` lists. -/
theorem sweep_next (env : Env) (va vb : List Int) (rest done : List operation_desc_t)
    (t : Thread) (s : List operation_desc_t × Thread)
    (h : sweep env va vb done rest t = .next s) :
    s.2.trials = t.trials ++ sweepTrials env.gKeepRunning t.flagReads done.length rest.length ∧
    s.2.flagReads = sweepPolls env.gKeepRunning t.flagReads rest.length ∧
    s.1.length = done.length + rest.length ∧
    s.2.i = t.i ∧ s.2.gHasErrors = t.gHasErrors ∧ s.2.randCalls = t.randCalls := by
  induction rest generalizing done t with
  | nil =>
    simp only [sweep] at h
    injection h with h
    subst h
    simp [sweepTrials, sweepPolls]
  | cons opd rest ih =>
    unfold sweep at h
    simp only at h
    split at h
    · exact Flow.noConfusion h
    · split at h
      · rename_i opd2 t2 htl
        have hl := trial_loop_next _ _ _ _ _ _ _ _ _ htl
        simp only at hl
        obtain ⟨l1, l2, -, l4, l5, l6⟩ := hl
        obtain ⟨h1, h2, h3, h4, h5, h6⟩ := ih _ _ h
        simp only [List.length_append, List.length_singleton] at h1 h3
        refine ⟨?_, ?_, ?_, by rw [h4, l4], by rw [h5, l5], by rw [h6, l6]⟩
        · rw [h1, l1, l2, List.append_assoc]
          simp only [List.length_cons, sweepTrials]
        · rw [h2, l2]
          simp only [List.length_cons, sweepPolls]
        · rw [h3]; simp only [List.length_cons]; omega
      · exact Flow.noConfusion h
      · exact Flow.noConfusion h

/-- A sweep returns only on a mismatch, with `gHasErrors` set. -/
theorem sweep_ret (env : Env) (va vb : List Int) (rest done : List operation_desc_t)
    (t : Thread) (x : Exit) (s : List operation_desc_t × Thread)
    (h : sweep env va vb done rest t = .ret x s) :
    x = .error ∧ s.2.gHasErrors = true := by
  induction rest generalizing done t with
  | nil => simp only [sweep] at h; exact Flow.noConfusion h
  | cons opd rest ih =>
    unfold sweep at h
    simp only at h
    split at h
    · exact Flow.noConfusion h
    · split at h
      · exact ih _ _ h
      · rename_i y opd2 t2 htl
        have hl := trial_loop_ret _ _ _ _ _ _ _ _ _ _ htl
        injection h with hx hs
        subst hx hs
        exact ⟨hl.1, hl.2.1⟩
      · exact Flow.noConfusion h

/-- With a clock that ticks, a sweep throws nothing. -/
theorem sweep_no_throw (env : Env) (hclock : ClockTicks env) (va vb : List Int)
    (rest done : List operation_desc_t) (t : Thread) (msg : String)
    (s : List operation_desc_t × Thread) :
    sweep env va vb done rest t ≠ .throw msg s := by
  induction rest generalizing done t with
  | nil => simp only [sweep]; exact fun h => Flow.noConfusion h
  | cons opd rest ih =>
    unfold sweep
    simp only
    obtain ⟨a, b, ha, -, -⟩ := hclock t.clockCalls
    rw [Runtime.begin_of_ok _ _ a ha]
    simp only
    split
    · exact ih _ _
    · exact fun h => Flow.noConfusion h
    · rename_i m opd2 t2 htl
      exact absurd htl (trial_loop_no_throw env hclock va vb _ _ _ _ _ t.clockCalls rfl ha _ _)

/-! ### One outer iteration -/

theorem zero_result_vectors_length (ops : List operation_desc_t) :
    (zero_result_vectors ops).length = ops.length := by
  simp [zero_result_vectors]

/-- What an outer iteration does once its sweep has run to its end. -/
theorem iteration_of_sweep (env : Env) (L : Int) (w s1 : List operation_desc_t × Thread)
    (h : sweep env (makeVector env.rand w.2.randCalls kVectorSize)
      (makeVector env.rand (w.2.randCalls + 2 * kVectorSize) kVectorSize) []
      (zero_result_vectors w.1)
      { w.2 with randCalls := w.2.randCalls + 4 * kVectorSize } = .next s1) :
    iteration env L w =
      if L > 0 ∧ s1.2.i ≥ L then .ret .limit s1
      else if !env.gKeepRunning s1.2.flagReads then
        .ret .signal (s1.1, { s1.2 with flagReads := s1.2.flagReads + 1 })
      else .next (s1.1, { s1.2 with flagReads := s1.2.flagReads + 1, i := wrap32 (s1.2.i + 1) }) := by
  unfold iteration
  simp only
  rw [h]

/-- An outer iteration that ends without a mismatch and without an exception: the sweep
ran to its end. -/
theorem iteration_sweep (env : Env) (L : Int) (w s : List operation_desc_t × Thread)
    (h : iteration env L w = .next s ∨ iteration env L w = .ret .limit s ∨
      iteration env L w = .ret .signal s) :
    ∃ s1, sweep env (makeVector env.rand w.2.randCalls kVectorSize)
      (makeVector env.rand (w.2.randCalls + 2 * kVectorSize) kVectorSize) []
      (zero_result_vectors w.1)
      { w.2 with randCalls := w.2.randCalls + 4 * kVectorSize } = .next s1 ∧
      s.2.trials = s1.2.trials ∧ s.1 = s1.1 ∧ s.2.gHasErrors = s1.2.gHasErrors := by
  cases hsw : sweep env (makeVector env.rand w.2.randCalls kVectorSize)
      (makeVector env.rand (w.2.randCalls + 2 * kVectorSize) kVectorSize) []
      (zero_result_vectors w.1)
      { w.2 with randCalls := w.2.randCalls + 4 * kVectorSize } with
  | next s1 =>
    refine ⟨s1, rfl, ?_⟩
    rw [iteration_of_sweep env L w s1 hsw] at h
    by_cases h1 : L > 0 ∧ s1.2.i ≥ L
    · rw [if_pos h1] at h
      rcases h with h | h | h
      · exact Flow.noConfusion h
      · injection h with _ h; subst h; exact ⟨rfl, rfl, rfl⟩
      · injection h with hx; exact Exit.noConfusion hx
    · rw [if_neg h1] at h
      by_cases h2 : (!env.gKeepRunning s1.2.flagReads) = true
      · rw [if_pos h2] at h
        rcases h with h | h | h
        · exact Flow.noConfusion h
        · injection h with hx; exact Exit.noConfusion hx
        · injection h with _ h; subst h; exact ⟨rfl, rfl, rfl⟩
      · rw [if_neg h2] at h
        rcases h with h | h | h
        · injection h with h; subst h; exact ⟨rfl, rfl, rfl⟩
        · exact Flow.noConfusion h
        · exact Flow.noConfusion h
  | ret x s1 =>
    have hx := (sweep_ret _ _ _ _ _ _ _ _ hsw).1
    subst hx
    unfold iteration at h
    simp only [hsw] at h
    rcases h with h | h | h
    · exact Flow.noConfusion h
    · injection h with hx; exact Exit.noConfusion hx
    · injection h with hx; exact Exit.noConfusion hx
  | throw msg s1 =>
    unfold iteration at h
    simp only [hsw] at h
    rcases h with h | h | h <;> exact Flow.noConfusion h

/-- The kernel calls of an outer iteration that ends without a mismatch and without an
exception. -/
theorem iteration_trials (env : Env) (L : Int) (w s : List operation_desc_t × Thread)
    (h : iteration env L w = .next s ∨ iteration env L w = .ret .limit s ∨
      iteration env L w = .ret .signal s) :
    s.2.trials = w.2.trials ++ sweepTrials env.gKeepRunning w.2.flagReads 0 w.1.length := by
  obtain ⟨s1, hsw, ht, -, -⟩ := iteration_sweep env L w s h
  have := (sweep_next _ _ _ _ _ _ _ hsw).1
  rw [ht, this]
  simp [zero_result_vectors_length]

/-- With a clock that ticks, an outer iteration either reports a mismatch or goes through
its sweep and then takes the branch the limit and the flag select. -/
theorem iteration_cases (env : Env) (hclock : ClockTicks env) (L : Int)
    (w : List operation_desc_t × Thread) :
    (∃ s, iteration env L w = .ret .error s) ∨
    ∃ s1 : List operation_desc_t × Thread,
      s1.2.i = w.2.i ∧ s1.2.gHasErrors = w.2.gHasErrors ∧ s1.1.length = w.1.length ∧
      s1.2.flagReads = sweepPolls env.gKeepRunning w.2.flagReads w.1.length ∧
      s1.2.trials = w.2.trials ++ sweepTrials env.gKeepRunning w.2.flagReads 0 w.1.length ∧
      iteration env L w =
        if L > 0 ∧ s1.2.i ≥ L then .ret .limit s1
        else if !env.gKeepRunning s1.2.flagReads then
          .ret .signal (s1.1, { s1.2 with flagReads := s1.2.flagReads + 1 })
        else .next (s1.1,
          { s1.2 with flagReads := s1.2.flagReads + 1, i := wrap32 (s1.2.i + 1) }) := by
  cases hsw : sweep env (makeVector env.rand w.2.randCalls kVectorSize)
      (makeVector env.rand (w.2.randCalls + 2 * kVectorSize) kVectorSize) []
      (zero_result_vectors w.1)
      { w.2 with randCalls := w.2.randCalls + 4 * kVectorSize } with
  | next s1 =>
    right
    obtain ⟨h1, h2, h3, h4, h5, -⟩ := sweep_next _ _ _ _ _ _ _ hsw
    refine ⟨s1, h4, h5, ?_, ?_, ?_, iteration_of_sweep env L w s1 hsw⟩
    · rw [h3]; simp [zero_result_vectors_length]
    · rw [h2]; simp [zero_result_vectors_length]
    · rw [h1]; simp [zero_result_vectors_length]
  | ret x s1 =>
    left
    have hx := (sweep_ret _ _ _ _ _ _ _ _ hsw).1
    subst hx
    refine ⟨s1, ?_⟩
    unfold iteration
    simp only [hsw]
  | throw msg s1 =>
    exact absurd hsw (sweep_no_throw env hclock _ _ _ _ _ _ _)

/-! ### The whole loop -/

theorem run_succ_right (env : Env) (L : Int) (n : Nat) (w : List operation_desc_t × Thread) :
    run env L (n + 1) w =
      match run env L n w with
      | .next w1 => iteration env L w1
      | r => r := by
  induction n generalizing w with
  | zero =>
    simp only [run]
    cases iteration env L w <;> rfl
  | succ n ih =>
    rw [run]
    cases hit : iteration env L w with
    | next w1 =>
      simp only
      rw [ih w1]
      conv_rhs => rw [run, hit]
    | ret x s => simp only [run, hit]
    | throw msg s => simp only [run, hit]

theorem wrap32_of_int32 (x : Int) (h1 : -2 ^ 31 ≤ x) (h2 : x < 2 ^ 31) : wrap32 x = x := by
  unfold wrap32
  norm_num at h1 h2 ⊢
  omega

/-- With a clock that ticks and a flag that stays set, a worker without a positive limit
goes from one outer iteration to the next unless a mismatch is reported. -/
theorem run_unlimited (env : Env) (hclock : ClockTicks env)
    (hkeep : ∀ p, env.gKeepRunning p = true) (L : Int) (hL : L ≤ 0)
    (w : List operation_desc_t × Thread)
    (hmatch : ∀ n s, run env L n w ≠ .ret .error s) (n : Nat) :
    ∃ s, run env L n w = .next s := by
  induction n with
  | zero => exact ⟨w, rfl⟩
  | succ n ih =>
    obtain ⟨s, hs⟩ := ih
    have hrun : run env L (n + 1) w = iteration env L s := by
      rw [run_succ_right, hs]
    rcases iteration_cases env hclock L s with ⟨s', herr⟩ | ⟨s1, -, -, -, -, -, hit⟩
    · exact absurd (hrun.trans herr) (hmatch (n + 1) s')
    · have hlim : ¬ (L > 0 ∧ s1.2.i ≥ L) := by omega
      rw [if_neg hlim, hkeep] at hit
      exact ⟨_, hrun.trans hit⟩

/-- With a clock that ticks and a flag that stays set, a worker with limit `L > 0` that
reports no mismatch is still in its loop after `n ≤ L` outer iterations, with `i = n`. -/
theorem run_below_limit (env : Env) (hclock : ClockTicks env)
    (hkeep : ∀ p, env.gKeepRunning p = true) (L : Nat) (hL32 : L < 2 ^ 31)
    (w : List operation_desc_t × Thread) (hi : w.2.i = 0)
    (hmatch : ∀ n s, run env L n w ≠ .ret .error s) (n : Nat) (hn : n ≤ L) :
    ∃ s, run env L n w = .next s ∧ s.2.i = n ∧ s.2.gHasErrors = w.2.gHasErrors := by
  induction n with
  | zero => exact ⟨w, rfl, by simpa using hi, rfl⟩
  | succ n ih =>
    obtain ⟨s, hs, hsi, hsg⟩ := ih (by omega)
    have hrun : run env L (n + 1) w = iteration env L s := by
      rw [run_succ_right, hs]
    rcases iteration_cases env hclock L s with ⟨s', herr⟩ | ⟨s1, h1, h2, -, -, -, hit⟩
    · exact absurd (hrun.trans herr) (hmatch (n + 1) s')
    · have hlim : ¬ ((L : Int) > 0 ∧ s1.2.i ≥ (L : Int)) := by
        rw [h1, hsi]; omega
      rw [if_neg hlim, hkeep] at hit
      refine ⟨_, hrun.trans hit, ?_, ?_⟩
      · simp only
        rw [h1, hsi, wrap32_of_int32]
        · push_cast; rfl
        · have : (0 : Int) ≤ (n : Int) := Int.natCast_nonneg n
          norm_num; omega
        · have h31 : ((L : Nat) : Int) < 2 ^ 31 := by exact_mod_cast hL32
          have : ((n : Nat) : Int) + 1 ≤ (L : Int) := by exact_mod_cast hn
          omega
      · simp only; rw [h2, hsg]

/-- The outer iteration at which the counter equals the limit returns by the limit
branch. -/
theorem run_at_limit (env : Env) (hclock : ClockTicks env)
    (hkeep : ∀ p, env.gKeepRunning p = true) (L : Nat) (hL : 0 < L) (hL32 : L < 2 ^ 31)
    (w : List operation_desc_t × Thread) (hi : w.2.i = 0)
    (hmatch : ∀ n s, run env L n w ≠ .ret .error s) :
    ∃ s, run env L (L + 1) w = .ret .limit s ∧ s.2.i = L ∧
      s.2.gHasErrors = w.2.gHasErrors := by
  obtain ⟨s, hs, hsi, hsg⟩ := run_below_limit env hclock hkeep L hL32 w hi hmatch L le_rfl
  have hrun : run env L (L + 1) w = iteration env L s := by
    rw [run_succ_right, hs]
  rcases iteration_cases env hclock L s with ⟨s', herr⟩ | ⟨s1, h1, h2, -, -, -, hit⟩
  · exact absurd (hrun.trans herr) (hmatch (L + 1) s')
  · have hlim : (L : Int) > 0 ∧ s1.2.i ≥ (L : Int) := by
      rw [h1, hsi]; omega
    rw [if_pos hlim] at hit
    exact ⟨s1, hrun.trans hit, by rw [h1, hsi], by rw [h2, hsg]⟩

/-! ### The environments of the examples -/

theorem clockTicks_of_seconds (env : Env) (h : ∀ n, env.clock n = ⟨0, n, 0⟩) :
    ClockTicks env := by
  intro n
  refine ⟨((n : Int) * 1000000000 % 2 ^ 64).toNat,
    (((n + 1 : Nat) : Int) * 1000000000 % 2 ^ 64).toNat, ?_, ?_, ?_⟩
  · rw [h]; simp [getMonoTimeNs]
  · rw [h]; simp [getMonoTimeNs]
  · intro heq
    have h1 : (0 : Int) ≤ (n : Int) * 1000000000 % 2 ^ 64 :=
      Int.emod_nonneg _ (by norm_num)
    have h2 : (0 : Int) ≤ ((n + 1 : Nat) : Int) * 1000000000 % 2 ^ 64 :=
      Int.emod_nonneg _ (by norm_num)
    have h3 := congrArg (fun k : Nat => (k : Int)) heq
    simp only [Int.toNat_of_nonneg h1, Int.toNat_of_nonneg h2] at h3
    push_cast at h3
    omega

theorem clockTicks_freeEnv : ClockTicks freeEnv := clockTicks_of_seconds _ fun _ => rfl

theorem clockTicks_steadyEnv (stopAt : Nat) : ClockTicks (steadyEnv stopAt) :=
  clockTicks_of_seconds _ fun _ => rfl

/-! ### Counting the reads of `gKeepRunning` -/

theorem pollsPassed_all (keep : Nat → Bool) (n p : Nat)
    (h : ∀ q, q < n → keep (p + q) = true) : pollsPassed keep p n = n := by
  induction n generalizing p with
  | zero => rfl
  | succ n ih =>
    have h0 : keep p = true := by simpa using h 0 (by omega)
    simp only [pollsPassed, if_pos h0]
    rw [ih (p + 1)]
    intro q hq
    have := h (q + 1) (by omega)
    rwa [show p + (q + 1) = p + 1 + q by omega] at this

theorem pollsPassed_first (keep : Nat → Bool) (n p j : Nat) (hj : j < n)
    (h : ∀ q, q < j → keep (p + q) = true) (hstop : keep (p + j) = false) :
    pollsPassed keep p n = j := by
  induction n generalizing p j with
  | zero => omega
  | succ n ih =>
    rcases Nat.eq_zero_or_pos j with h0 | hpos
    · subst h0
      have : ¬ (keep p = true) := by simpa using hstop
      simp only [pollsPassed, if_neg this]
    · have hp : keep p = true := by simpa using h 0 hpos
      simp only [pollsPassed, if_pos hp]
      obtain ⟨j', rfl⟩ : ∃ j', j = j' + 1 := ⟨j - 1, by omega⟩
      rw [ih (p + 1) j' (by omega)]
      · intro q hq
        have := h (q + 1) (by omega)
        rwa [show p + (q + 1) = p + 1 + q by omega] at this
      · rwa [show p + (j' + 1) = p + 1 + j' by omega] at hstop

theorem sweepTrials_all (keep : Nat → Bool) (m p k : Nat)
    (h : ∀ q, p ≤ q → q < p + m * (kRepeatCount + 1) → keep q = true) :
    sweepTrials keep p k m =
      (List.range m).flatMap fun j => List.replicate kRepeatCount (k + j) := by
  induction m generalizing p k with
  | zero => rfl
  | succ m ih =>
    have hpp : pollsPassed keep p kRepeatCount = kRepeatCount := by
      apply pollsPassed_all
      intro q hq
      apply h (p + q) (by omega)
      have : kRepeatCount + 1 ≤ (m + 1) * (kRepeatCount + 1) := Nat.le_mul_of_pos_left _ (by omega)
      omega
    simp only [sweepTrials, hpp]
    rw [ih (p + kRepeatCount + 1) (k + 1), List.range_succ_eq_map, List.flatMap_cons,
      List.flatMap_map]
    · simp only [Nat.add_zero]
      congr 1
      apply List.flatMap_congr
      intro j _
      show List.replicate kRepeatCount (k + 1 + j) = List.replicate kRepeatCount (k + Nat.succ j)
      congr 1
      omega
    · intro q h1 h2
      apply h q (by omega)
      have : (m + 1) * (kRepeatCount + 1) = m * (kRepeatCount + 1) + (kRepeatCount + 1) := by ring
      omega

theorem sweepTrials_stopped (keep : Nat → Bool) (m p k : Nat)
    (h : ∀ q, p ≤ q → keep q = false) : sweepTrials keep p k m = [] := by
  induction m generalizing p k with
  | zero => rfl
  | succ m ih =>
    have hpp : pollsPassed keep p kRepeatCount = 0 :=
      pollsPassed_first keep kRepeatCount p 0 (by norm_num [kRepeatCount])
        (fun q hq => by omega) (h p le_rfl)
    simp only [sweepTrials, hpp, List.replicate_zero, List.nil_append]
    exact ih _ _ fun q hq => h q (by omega)

/-! ### Where a mismatch can be reported -/

theorem trial_loop_ret_poll (env : Env) (va vb : List Int) (k : Nat) (ref0 : Option (List Int))
    (n : Nat) (opd : operation_desc_t) (t : Thread) (x : Exit) (s : operation_desc_t × Thread)
    (h : trial_loop env va vb k ref0 n opd t = .ret x s) :
    env.gKeepRunning t.flagReads = true := by
  cases n with
  | zero => simp only [trial_loop] at h; exact Flow.noConfusion h
  | succ n =>
    unfold trial_loop at h
    by_cases hk : env.gKeepRunning t.flagReads = true
    · exact hk
    · rw [if_neg hk] at h; exact Flow.noConfusion h

/-- A mismatch is reported by a descriptor other than the first, whose loop found the
flag set at its first read. -/
theorem sweep_ret_poll (env : Env) (va vb : List Int) (rest done : List operation_desc_t)
    (t : Thread) (x : Exit) (s : List operation_desc_t × Thread)
    (h : sweep env va vb done rest t = .ret x s) :
    ∃ j, j < rest.length ∧ 0 < done.length + j ∧
      env.gKeepRunning (sweepPolls env.gKeepRunning t.flagReads j) = true := by
  induction rest generalizing done t with
  | nil => simp only [sweep] at h; exact Flow.noConfusion h
  | cons opd rest ih =>
    unfold sweep at h
    simp only at h
    split at h
    · exact Flow.noConfusion h
    · split at h
      · rename_i opd2 t2 htl
        obtain ⟨j, hj, hpos, hkeep⟩ := ih _ _ h
        have hl := (trial_loop_next _ _ _ _ _ _ _ _ _ htl).2.1
        simp only at hl
        refine ⟨j + 1, by simp only [List.length_cons]; omega, by omega, ?_⟩
        simp only [sweepPolls]
        rw [← hl]; exact hkeep
      · rename_i y opd2 t2 htl
        have hp := trial_loop_ret_poll _ _ _ _ _ _ _ _ _ _ htl
        have hr := (trial_loop_ret _ _ _ _ _ _ _ _ _ _ htl).2.2
        refine ⟨0, by simp, ?_, by simpa [sweepPolls] using hp⟩
        cases done with
        | nil => exact absurd rfl hr
        | cons d ds => simp
      · exact Flow.noConfusion h

theorem iteration_ret_error (env : Env) (L : Int) (w s : List operation_desc_t × Thread)
    (h : iteration env L w = .ret .error s) :
    sweep env (makeVector env.rand w.2.randCalls kVectorSize)
      (makeVector env.rand (w.2.randCalls + 2 * kVectorSize) kVectorSize) []
      (zero_result_vectors w.1)
      { w.2 with randCalls := w.2.randCalls + 4 * kVectorSize } = .ret .error s := by
  cases hsw : sweep env (makeVector env.rand w.2.randCalls kVectorSize)
      (makeVector env.rand (w.2.randCalls + 2 * kVectorSize) kVectorSize) []
      (zero_result_vectors w.1)
      { w.2 with randCalls := w.2.randCalls + 4 * kVectorSize } with
  | next s1 =>
    rw [iteration_of_sweep env L w s1 hsw] at h
    by_cases h1 : L > 0 ∧ s1.2.i ≥ L
    · rw [if_pos h1] at h; injection h with hx; exact Exit.noConfusion hx
    · rw [if_neg h1] at h
      by_cases h2 : (!env.gKeepRunning s1.2.flagReads) = true
      · rw [if_pos h2] at h; injection h with hx; exact Exit.noConfusion hx
      · rw [if_neg h2] at h; exact Flow.noConfusion h
  | ret x s1 =>
    unfold iteration at h
    simp only [hsw] at h
    rw [h]
  | throw msg s1 =>
    unfold iteration at h
    simp only [hsw] at h
    exact Flow.noConfusion h

/-! ### A clock that stands still -/

theorem trial_loop_throw_first (env : Env) (va vb : List Int) (k : Nat)
    (ref0 : Option (List Int)) (n : Nat) (opd : operation_desc_t) (t : Thread) (msg : String)
    (hk : env.gKeepRunning t.flagReads = true)
    (hrec : (opd.runtime.record (env.clock t.clockCalls) kVectorSize).2 = some msg) :
    ∃ s, trial_loop env va vb k ref0 (n + 1) opd t = .throw msg s := by
  unfold trial_loop
  rw [if_pos hk]
  simp only
  rw [hrec]
  exact ⟨_, rfl⟩

theorem iteration_frozen (L : Int) (opd : operation_desc_t) (rest : List operation_desc_t)
    (t : Thread) : ∃ s, iteration frozenEnv L (opd :: rest, t) = .throw "zero runtime" s := by
  have hrec : ∀ r : Runtime, r.mBeginTime = 0 →
      (r.record ⟨0, 0, 0⟩ kVectorSize).2 = some "zero runtime" := by
    intro r hr
    simp [Runtime.record, getMonoTimeNs, hr]
  have hk : kRepeatCount = 99 + 1 := rfl
  unfold iteration
  simp only [zero_result_vectors, List.map_cons]
  unfold sweep
  simp only [frozenEnv, Runtime.begin_of_ok _ ⟨0, 0, 0⟩ 0 rfl, hk]
  obtain ⟨s, hs⟩ := trial_loop_throw_first frozenEnv
    (makeVector frozenEnv.rand t.randCalls kVectorSize)
    (makeVector frozenEnv.rand (t.randCalls + 2 * kVectorSize) kVectorSize)
    ([] : List operation_desc_t).length
    (([] : List operation_desc_t).head?.map (·.result_vector)) 99
    { opd with
      result_vector := memset_zero opd.result_vector kVectorSize
      runtime := { opd.runtime with
        mWarmupCountRemaining := opd.runtime.mWarmupCount, mBeginTime := 0 } }
    { t with randCalls := t.randCalls + 4 * kVectorSize, clockCalls := t.clockCalls + 1 }
    "zero runtime" rfl (hrec _ rfl)
  simp only [frozenEnv] at hs
  rw [hs]
  exact ⟨_, rfl⟩

theorem run_frozen (L : Int) (opd : operation_desc_t) (rest : List operation_desc_t)
    (t : Thread) (n : Nat) :
    ∃ s, run frozenEnv L (n + 1) (opd :: rest, t) = .throw "zero runtime" s := by
  obtain ⟨s, hs⟩ := iteration_frozen L opd rest t
  exact ⟨s, by rw [run, hs]⟩

theorem run_frozen_no_error (L : Int) (opd : operation_desc_t) (rest : List operation_desc_t)
    (t : Thread) (n : Nat) (s : List operation_desc_t × Thread) :
    run frozenEnv L n (opd :: rest, t) ≠ .ret .error s := by
  cases n with
  | zero => simp only [run]; exact fun h => Flow.noConfusion h
  | succ n =>
    obtain ⟨s', hs'⟩ := run_frozen L opd rest t n
    rw [hs']
    exact fun h => Flow.noConfusion h

/-! ### Kernels that add vectors never mismatch -/

theorem makeVector_length (rand : Nat → Nat) (pos size : Nat) :
    (makeVector rand pos size).length = size := by
  simp [makeVector]

theorem zipWith_add_length (va vb : List Int) (ha : va.length = kVectorSize)
    (hb : vb.length = kVectorSize) :
    (List.zipWith (fun a b => wrap32 (a + b)) va vb).length = kVectorSize := by
  simp [ha, hb]

theorem trial_loop_agree (env : Env) (va vb : List Int) (k : Nat) (ref0 : Option (List Int))
    (ha : va.length = kVectorSize) (hb : vb.length = kVectorSize)
    (href : ref0 = none ∨ ref0 = some (List.zipWith (fun a b => wrap32 (a + b)) va vb))
    (n : Nat) (opd : operation_desc_t) (t : Thread) (hfn : AddsVectors opd.fn)
    (hrv : opd.result_vector.length = kVectorSize) :
    (∀ x s, trial_loop env va vb k ref0 n opd t ≠ .ret x s) ∧
    (∀ s, trial_loop env va vb k ref0 n opd t = .next s →
      AddsVectors s.1.fn ∧ s.1.result_vector.length = kVectorSize ∧
      (s.1.result_vector = List.zipWith (fun a b => wrap32 (a + b)) va vb ∨
        (s.1.result_vector = opd.result_vector ∧
          pollsPassed env.gKeepRunning t.flagReads n = 0))) := by
  induction n generalizing opd t with
  | zero =>
    simp only [trial_loop]
    refine ⟨fun x s h => Flow.noConfusion h, fun s h => ?_⟩
    injection h with h
    subst h
    exact ⟨hfn, hrv, Or.inr ⟨rfl, rfl⟩⟩
  | succ n ih =>
    have hZ : opd.fn opd.result_vector va vb
        = List.zipWith (fun a b => wrap32 (a + b)) va vb :=
      hfn _ _ _ (by rw [hrv, ha]) (by rw [hrv, hb])
    have hcmp : compareVectors (opd.fn opd.result_vector va vb)
        (ref0.getD (opd.fn opd.result_vector va vb)) = true := by
      rcases href with h | h
      · rw [h]; exact compareVectors_self _
      · rw [h, hZ]; exact compareVectors_self _
    unfold trial_loop
    by_cases hk : env.gKeepRunning t.flagReads = true
    · rw [if_pos hk]
      simp only
      split
      · exact ⟨fun x s h => Flow.noConfusion h, fun s h => Flow.noConfusion h⟩
      · rw [if_pos hcmp]
        have := ih { opd with result_vector := opd.fn opd.result_vector va vb,
                              runtime := (opd.runtime.record (env.clock t.clockCalls)
                                kVectorSize).1 }
          { t with flagReads := t.flagReads + 1, clockCalls := t.clockCalls + 1,
                   trials := t.trials ++ [k] } hfn
          (by simp only; rw [hZ]; exact zipWith_add_length va vb ha hb)
        refine ⟨this.1, fun s hs => ?_⟩
        obtain ⟨h1, h2, h3⟩ := this.2 s hs
        refine ⟨h1, h2, Or.inl ?_⟩
        rcases h3 with h3 | h3
        · exact h3
        · rw [h3.1]; exact hZ
    · rw [if_neg hk]
      refine ⟨fun x s h => Flow.noConfusion h, fun s h => ?_⟩
      injection h with h
      subst h
      exact ⟨hfn, hrv, Or.inr ⟨rfl, by simp [pollsPassed, hk]⟩⟩

theorem soundRegistry_append (xs ys : List operation_desc_t) (hx : SoundRegistry xs)
    (hy : SoundRegistry ys) : SoundRegistry (xs ++ ys) := by
  intro d hd
  rcases List.mem_append.mp hd with h | h
  · exact hx d h
  · exact hy d h

theorem sweep_agree (env : Env) (hkeep : ∀ p, env.gKeepRunning p = true) (va vb : List Int)
    (ha : va.length = kVectorSize) (hb : vb.length = kVectorSize)
    (rest done : List operation_desc_t) (t : Thread)
    (hrest : SoundRegistry rest) (hdone : SoundRegistry done)
    (hhead : ∀ d, done.head? = some d →
      d.result_vector = List.zipWith (fun a b => wrap32 (a + b)) va vb) :
    (∀ x s, sweep env va vb done rest t ≠ .ret x s) ∧
    (∀ s, sweep env va vb done rest t = .next s → SoundRegistry s.1) := by
  induction rest generalizing done t with
  | nil =>
    simp only [sweep]
    refine ⟨fun x s h => Flow.noConfusion h, fun s h => ?_⟩
    injection h with h
    subst h
    exact hdone
  | cons opd rest ih =>
    have hopd := hrest opd (List.mem_cons_self _ _)
    have hrest' : SoundRegistry rest := fun d hd => hrest d (List.mem_cons_of_mem _ hd)
    have href : done.head?.map (·.result_vector) = none ∨
        done.head?.map (·.result_vector)
          = some (List.zipWith (fun a b => wrap32 (a + b)) va vb) := by
      cases hd : done.head? with
      | none => left; rfl
      | some d => right; simp only [Option.map_some']; rw [hhead d hd]
    unfold sweep
    simp only
    split
    · exact ⟨fun x s h => Flow.noConfusion h, fun s h => Flow.noConfusion h⟩
    · have hl := trial_loop_agree env va vb done.length _ ha hb href kRepeatCount
        { opd with runtime := (opd.runtime.begin (env.clock t.clockCalls)).1 }
        { t with clockCalls := t.clockCalls + 1 } hopd.1 hopd.2
      split
      · rename_i opd2 t2 htl
        obtain ⟨h1, h2, h3⟩ := hl.2 _ htl
        have hpp : pollsPassed env.gKeepRunning t.flagReads kRepeatCount ≠ 0 := by
          rw [pollsPassed_all _ _ _ fun q _ => hkeep _]
          decide
        have hZ : opd2.result_vector = List.zipWith (fun a b => wrap32 (a + b)) va vb := by
          rcases h3 with h3 | h3
          · exact h3
          · exact absurd h3.2 hpp
        apply ih
        · exact hrest'
        · apply soundRegistry_append _ _ hdone
          intro d hd
          rw [List.mem_singleton.mp hd]
          exact ⟨h1, h2⟩
        · intro d hd
          cases done with
          | nil =>
            simp only [List.nil_append, List.head?_cons, Option.some.injEq] at hd
            rw [← hd]; exact hZ
          | cons d0 ds =>
            simp only [List.cons_append, List.head?_cons, Option.some.injEq] at hd
            exact hhead d (by simp [hd])
      · rename_i y opd2 t2 htl
        exact absurd htl (hl.1 _ _)
      · exact ⟨fun x s h => Flow.noConfusion h, fun s h => Flow.noConfusion h⟩

theorem soundRegistry_zero (ops : List operation_desc_t) (h : SoundRegistry ops) :
    SoundRegistry (zero_result_vectors ops) := by
  intro d hd
  simp only [zero_result_vectors, List.mem_map] at hd
  obtain ⟨d0, hd0, rfl⟩ := hd
  exact ⟨(h d0 hd0).1, by simp only [memset_zero_length]; exact (h d0 hd0).2⟩

theorem iteration_agree (env : Env) (hkeep : ∀ p, env.gKeepRunning p = true) (L : Int)
    (w : List operation_desc_t × Thread) (hw : SoundRegistry w.1) :
    (∀ s, iteration env L w ≠ .ret .error s) ∧
    (∀ s, iteration env L w = .next s → SoundRegistry s.1) := by
  have hsw := sweep_agree env hkeep
    (makeVector env.rand w.2.randCalls kVectorSize)
    (makeVector env.rand (w.2.randCalls + 2 * kVectorSize) kVectorSize)
    (makeVector_length _ _ _) (makeVector_length _ _ _)
    (zero_result_vectors w.1) [] { w.2 with randCalls := w.2.randCalls + 4 * kVectorSize }
    (soundRegistry_zero _ hw) (fun d hd => (List.not_mem_nil d hd).elim)
    (fun d hd => by simp at hd)
  constructor
  · intro s h
    exact hsw.1 _ _ (iteration_ret_error env L w s h)
  · intro s h
    obtain ⟨s1, hs1, -, h1, -⟩ := iteration_sweep env L w s (Or.inl h)
    rw [h1]
    exact hsw.2 s1 hs1

/-- A worker whose kernels all add vectors never reports a mismatch while the flag stays
set. -/
theorem run_agree (env : Env) (hkeep : ∀ p, env.gKeepRunning p = true) (L : Int) (n : Nat)
    (w : List operation_desc_t × Thread) (hw : SoundRegistry w.1)
    (s : List operation_desc_t × Thread) : run env L n w ≠ .ret .error s := by
  induction n generalizing w with
  | zero => simp only [run]; exact fun h => Flow.noConfusion h
  | succ n ih =>
    rw [run]
    have hs := iteration_agree env hkeep L w hw
    cases hit : iteration env L w with
    | next w1 => exact ih w1 (hs.2 w1 hit)
    | ret x s1 =>
      simp only
      intro h
      injection h with hx hs1
      subst hx hs1
      exact hs.1 _ hit
    | throw msg s1 => simp only; exact fun h => Flow.noConfusion h

theorem soundRegistry_threadOpDescriptors : SoundRegistry threadOpDescriptors := by
  intro d hd
  simp only [threadOpDescriptors, init_op_descriptors, List.nil_append, List.map_cons,
    List.map_nil, List.mem_cons, List.mem_singleton, List.not_mem_nil, or_false] at hd
  rcases hd with rfl | rfl
  · exact ⟨fun vres va vb ha hb => vector_add_i32_c_zipWith ⟨vres, va, vb⟩ ha hb,
      by simp [resize]⟩
  · exact ⟨fun vres va vb ha hb => vector_add_i32_c_prefetch_zipWith ⟨vres, va, vb⟩ ha hb,
      by simp [resize]⟩

/-! ## Claims about `worker_thread_main` -/

/-- C8 (amended): with `iterationCount ≤ 0`, a flag `gKeepRunning` that is never cleared,
no mismatch ever reported, and a clock that neither fails nor shows the same time at two
successive readings, the worker is still in its loop after `n` outer iterations, for
every `n`. -/
theorem zero_limit_runs_on (env : Env) (opDescriptors : List operation_desc_t)
    (iterationCount : Int) (gHasErrors : Bool) (hlimit : iterationCount ≤ 0)
    (hkeep : ∀ p, env.gKeepRunning p = true)
    (hmatch : ∀ n s,
      worker_thread_main env opDescriptors iterationCount gHasErrors n ≠ .ret .error s)
    (hclock : ClockTicks env) (n : Nat) :
    ∃ s, worker_thread_main env opDescriptors iterationCount gHasErrors n = .next s :=
  run_unlimited env hclock hkeep iterationCount hlimit _ hmatch n

/-- C8, witness: the registry `main` builds, limit 0, a clock advancing by one second per
reading and a flag never cleared; after 1000 outer iterations the worker is still in its
loop. -/
theorem zero_limit_runs_on_witness :
    (0 : Int) ≤ 0 ∧ (∀ p, freeEnv.gKeepRunning p = true) ∧
    (∀ n s, worker_thread_main freeEnv threadOpDescriptors 0 false n ≠ .ret .error s) ∧
    ClockTicks freeEnv ∧
    ∃ s, worker_thread_main freeEnv threadOpDescriptors 0 false 1000 = .next s := by
  have hm : ∀ n s,
      worker_thread_main freeEnv threadOpDescriptors 0 false n ≠ .ret .error s :=
    fun n s => run_agree freeEnv (fun _ => rfl) 0 n (threadOpDescriptors, Thread.start false)
      soundRegistry_threadOpDescriptors s
  exact ⟨le_rfl, fun _ => rfl, hm, clockTicks_freeEnv,
    zero_limit_runs_on freeEnv threadOpDescriptors 0 false le_rfl (fun _ => rfl) hm
      clockTicks_freeEnv 1000⟩

/-- C8, counterexample: the registry `main` builds, limit 0, the flag never cleared, no
mismatch ever reported, and a clock that shows 0 at every reading; the first `record` of
the first outer iteration throws "zero runtime", which ends the thread. -/
theorem zero_limit_runs_on_counterexample :
    (∀ p, frozenEnv.gKeepRunning p = true) ∧
    (∀ n s, worker_thread_main frozenEnv threadOpDescriptors 0 false n ≠ .ret .error s) ∧
    ∃ s, worker_thread_main frozenEnv threadOpDescriptors 0 false 1
      = .throw "zero runtime" s :=
  ⟨fun _ => rfl, fun n s => run_frozen_no_error 0 _ _ _ n s, run_frozen 0 _ _ _ 0⟩

/-- C10 (amended): with a limit `L > 0`, a flag `gKeepRunning` that is never cleared, no
mismatch ever reported, and a clock that neither fails nor shows the same time at two
successive readings, the worker is still in its loop after `n` outer iterations with
`i = n`, for every `n ≤ L`, and outer iteration number `L + 1` returns by the limit branch
with `i = L` and `gHasErrors` as it was at the start. -/
theorem limit_iterations (env : Env) (opDescriptors : List operation_desc_t)
    (L : Nat) (gHasErrors : Bool) (hpos : 0 < L) (hint : L < 2 ^ 31)
    (hkeep : ∀ p, env.gKeepRunning p = true)
    (hmatch : ∀ n s, worker_thread_main env opDescriptors L gHasErrors n ≠ .ret .error s)
    (hclock : ClockTicks env) :
    (∀ n, n ≤ L → ∃ s, worker_thread_main env opDescriptors L gHasErrors n = .next s ∧
      s.2.i = n) ∧
    ∃ s, worker_thread_main env opDescriptors L gHasErrors (L + 1) = .ret .limit s ∧
      s.2.i = L ∧ s.2.gHasErrors = gHasErrors := by
  constructor
  · intro n hn
    obtain ⟨s, h1, h2, -⟩ :=
      run_below_limit env hclock hkeep L hint _ rfl hmatch n hn
    exact ⟨s, h1, h2⟩
  · exact run_at_limit env hclock hkeep L hpos hint _ rfl hmatch

/-- C10, witness: the registry `main` builds and limit 3; the worker is still in its loop
after 3 outer iterations, with `i = 3`, and the fourth returns by the limit branch. -/
theorem limit_iterations_witness :
    0 < 3 ∧ 3 < 2 ^ 31 ∧ (∀ p, freeEnv.gKeepRunning p = true) ∧
    (∀ n s,
      worker_thread_main freeEnv threadOpDescriptors (3 : Nat) false n ≠ .ret .error s) ∧
    ClockTicks freeEnv ∧
    (∃ s, worker_thread_main freeEnv threadOpDescriptors (3 : Nat) false 3 = .next s ∧
      s.2.i = (3 : Nat)) ∧
    ∃ s, worker_thread_main freeEnv threadOpDescriptors (3 : Nat) false (3 + 1)
        = .ret .limit s ∧ s.2.i = (3 : Nat) ∧ s.2.gHasErrors = false := by
  have hm : ∀ n s,
      worker_thread_main freeEnv threadOpDescriptors (3 : Nat) false n ≠ .ret .error s :=
    fun n s => run_agree freeEnv (fun _ => rfl) _ n (threadOpDescriptors, Thread.start false)
      soundRegistry_threadOpDescriptors s
  have h := limit_iterations freeEnv threadOpDescriptors 3 false (by norm_num) (by norm_num)
    (fun _ => rfl) hm clockTicks_freeEnv
  exact ⟨by norm_num, by norm_num, fun _ => rfl, hm, clockTicks_freeEnv, h.1 3 le_rfl, h.2⟩

/-- C10, counterexample: the registry `main` builds, limit 1, the flag never cleared, no
mismatch ever reported, and a clock that shows 0 at every reading; the first `record` of
the first outer iteration throws "zero runtime": the worker does not complete an outer
iteration and does not return by the limit branch. -/
theorem limit_iterations_counterexample :
    (∀ p, frozenEnv.gKeepRunning p = true) ∧
    (∀ n s, worker_thread_main frozenEnv threadOpDescriptors 1 false n ≠ .ret .error s) ∧
    ∃ s, worker_thread_main frozenEnv threadOpDescriptors 1 false 1
      = .throw "zero runtime" s :=
  ⟨fun _ => rfl, fun n s => run_frozen_no_error 1 _ _ _ n s, run_frozen 1 _ _ _ 0⟩

/-- C9 (amended): `gKeepRunning` is read before every trial, and once more at the end of
the outer iteration.  In an outer iteration that ends without a mismatch and without an
exception, the kernel calls are those `sweepTrials` lists: each descriptor is called as
many times as its reads find the flag set before the first that finds it cleared, at most
`kRepeatCount`.  So every descriptor is called exactly `kRepeatCount` times when no read
of the sweep finds the flag cleared; and when the flag is cleared for good just before
trial `j < kRepeatCount` of descriptor 0, descriptor 0 is called `j` times and the others
not at all. -/
theorem trials_per_iteration (env : Env) (iterationCount : Int)
    (w s : List operation_desc_t × Thread)
    (hend : iteration env iterationCount w = .next s ∨
      iteration env iterationCount w = .ret .limit s ∨
      iteration env iterationCount w = .ret .signal s) :
    s.2.trials = w.2.trials ++ sweepTrials env.gKeepRunning w.2.flagReads 0 w.1.length ∧
    ((∀ q, w.2.flagReads ≤ q → q < w.2.flagReads + w.1.length * (kRepeatCount + 1) →
        env.gKeepRunning q = true) →
      s.2.trials = w.2.trials ++
        (List.range w.1.length).flatMap fun k => List.replicate kRepeatCount k) ∧
    (∀ j, j < kRepeatCount → 0 < w.1.length →
      (∀ q, q < j → env.gKeepRunning (w.2.flagReads + q) = true) →
      (∀ q, w.2.flagReads + j ≤ q → env.gKeepRunning q = false) →
      s.2.trials = w.2.trials ++ List.replicate j 0) := by
  have ht := iteration_trials env iterationCount w s hend
  refine ⟨ht, ?_, ?_⟩
  · intro hall
    rw [ht, sweepTrials_all _ _ _ _ hall]
    simp
  · intro j hj hlen hpre hstop
    obtain ⟨m, hm⟩ : ∃ m, w.1.length = m + 1 := ⟨w.1.length - 1, by omega⟩
    rw [ht, hm]
    simp only [sweepTrials]
    rw [pollsPassed_first _ _ _ j hj hpre (hstop _ le_rfl),
      sweepTrials_stopped _ _ _ _ fun q hq => hstop q (by omega)]
    simp

/-- C9, witness: the registry `main` builds and a flag never cleared; the outer iteration
goes on to the next one after exactly `kRepeatCount` calls of `"c"` followed by exactly
`kRepeatCount` calls of `"c_prefetch"`. -/
theorem trials_per_iteration_witness :
    ∃ s, iteration freeEnv 0 (threadOpDescriptors, Thread.start false) = .next s ∧
      s.2.trials = List.replicate kRepeatCount 0 ++ List.replicate kRepeatCount 1 := by
  rcases iteration_cases freeEnv clockTicks_freeEnv 0
    (threadOpDescriptors, Thread.start false) with ⟨s', herr⟩ | ⟨s1, -, -, -, -, -, hit⟩
  · exact absurd herr ((iteration_agree freeEnv (fun _ => rfl) 0
      (threadOpDescriptors, Thread.start false) soundRegistry_threadOpDescriptors).1 s')
  · have hlim : ¬ ((0 : Int) > 0 ∧ s1.2.i ≥ 0) := by omega
    rw [if_neg hlim] at hit
    have hk : (!freeEnv.gKeepRunning s1.2.flagReads) = false := rfl
    rw [hk] at hit
    simp only [Bool.false_eq_true, if_false] at hit
    refine ⟨_, hit, ?_⟩
    have h := (trials_per_iteration freeEnv 0 (threadOpDescriptors, Thread.start false) _
      (Or.inl hit)).2.1 (fun _ _ _ => rfl)
    rw [h]
    have hlen : threadOpDescriptors.length = 2 := rfl
    simp [Thread.start, hlen, List.range_succ]

/-- C9, counterexample: the registry `main` builds (`"c"` and `"c_prefetch"`), and a flag
cleared after three reads, that is, just before the fourth trial of `"c"`.  The outer
iteration ends without a mismatch, by the signal branch, after three calls of `"c"` and no
call of `"c_prefetch"`, not `kRepeatCount = 100` of each. -/
theorem trials_per_iteration_counterexample :
    ∃ s, iteration (steadyEnv 3) 0 (threadOpDescriptors, Thread.start false) = .ret .signal s ∧
      s.2.trials = [0, 0, 0] := by
  have hlen : threadOpDescriptors.length = 2 := rfl
  have hpp : pollsPassed (steadyEnv 3).gKeepRunning 0 kRepeatCount = 3 := by decide
  have hpp4 : pollsPassed (steadyEnv 3).gKeepRunning 4 kRepeatCount = 0 := by decide
  rcases iteration_cases (steadyEnv 3) (clockTicks_steadyEnv 3) 0
    (threadOpDescriptors, Thread.start false) with ⟨s', herr⟩ | ⟨s1, -, -, -, hf, htr, hit⟩
  · exfalso
    obtain ⟨j, hj, hpos, hkeep⟩ := sweep_ret_poll _ _ _ _ _ _ _ _
      (iteration_ret_error _ _ _ _ herr)
    simp only [zero_result_vectors_length, hlen, List.length_nil, Thread.start] at hj hpos hkeep
    have hj1 : j = 1 := by omega
    subst hj1
    simp only [sweepPolls, hpp] at hkeep
    exact absurd hkeep (by decide)
  · have hlim : ¬ ((0 : Int) > 0 ∧ s1.2.i ≥ 0) := by omega
    simp only [hlen, Thread.start, sweepPolls, sweepTrials, hpp, hpp4] at hf htr
    have hk : (!(steadyEnv 3).gKeepRunning s1.2.flagReads) = true := by rw [hf]; decide
    rw [if_neg hlim, if_pos hk] at hit
    exact ⟨_, hit, by simpa using htr⟩

/-! ### The limit branch -/

theorem iteration_no_limit (env : Env) (L : Int) (hL : L ≤ 0)
    (w s : List operation_desc_t × Thread) : iteration env L w ≠ .ret .limit s := by
  intro h
  obtain ⟨s1, hsw, -⟩ := iteration_sweep env L w s (Or.inr (Or.inl h))
  rw [iteration_of_sweep env L w s1 hsw] at h
  have hlim : ¬ (L > 0 ∧ s1.2.i ≥ L) := by omega
  rw [if_neg hlim] at h
  by_cases h2 : (!env.gKeepRunning s1.2.flagReads) = true
  · rw [if_pos h2] at h; injection h with hx; exact Exit.noConfusion hx
  · rw [if_neg h2] at h; exact Flow.noConfusion h

theorem run_no_limit (env : Env) (L : Int) (hL : L ≤ 0) (n : Nat)
    (w s : List operation_desc_t × Thread) : run env L n w ≠ .ret .limit s := by
  induction n generalizing w with
  | zero => simp only [run]; exact fun h => Flow.noConfusion h
  | succ n ih =>
    rw [run]
    cases hit : iteration env L w with
    | next w1 => exact ih w1
    | ret x s1 =>
      simp only
      intro h
      injection h with hx hs1
      subst hx hs1
      exact iteration_no_limit env L hL w _ hit
    | throw msg s1 => simp only; exact fun h => Flow.noConfusion h

/-! ## Further properties -/

/-- X1: a worker whose kernels all leave the elementwise wrapping sum, on buffers of
`kVectorSize` elements, never returns by the mismatch branch while `gKeepRunning` stays
set. -/
theorem sound_registry_never_fails (env : Env) (opDescriptors : List operation_desc_t)
    (iterationCount : Int) (gHasErrors : Bool)
    (hkeep : ∀ p, env.gKeepRunning p = true) (hsound : SoundRegistry opDescriptors)
    (n : Nat) (s : List operation_desc_t × Thread) :
    worker_thread_main env opDescriptors iterationCount gHasErrors n ≠ .ret .error s :=
  run_agree env hkeep iterationCount n _ hsound s

/-- X1, witness: the registry `main` builds, `"c"` and `"c_prefetch"`. -/
theorem sound_registry_never_fails_witness :
    (∀ p, freeEnv.gKeepRunning p = true) ∧ SoundRegistry threadOpDescriptors ∧
    ∀ n s, worker_thread_main freeEnv threadOpDescriptors 5 false n ≠ .ret .error s :=
  ⟨fun _ => rfl, soundRegistry_threadOpDescriptors,
    fun n s => sound_registry_never_fails freeEnv threadOpDescriptors 5 false (fun _ => rfl)
      soundRegistry_threadOpDescriptors n s⟩

/-- X2: with `iterationCount ≤ 0` the worker never returns by the limit branch, whatever
the clock, the flag and the kernels do. -/
theorem zero_limit_never_stops (env : Env) (opDescriptors : List operation_desc_t)
    (iterationCount : Int) (gHasErrors : Bool) (hlimit : iterationCount ≤ 0)
    (n : Nat) (s : List operation_desc_t × Thread) :
    worker_thread_main env opDescriptors iterationCount gHasErrors n ≠ .ret .limit s :=
  run_no_limit env iterationCount hlimit n _ s

/-- X2, witness: limit 0 and the flag cleared after three reads. -/
theorem zero_limit_never_stops_witness :
    (0 : Int) ≤ 0 ∧
    ∀ n s, worker_thread_main (steadyEnv 3) threadOpDescriptors 0 false n ≠ .ret .limit s :=
  ⟨le_rfl, fun n s => zero_limit_never_stops (steadyEnv 3) threadOpDescriptors 0 false
    le_rfl n s⟩

/-- X3: `begin()` starts a new measurement epoch without resetting the statistics: it
leaves `mCount` and `mSum` as they were and sets the countdown to the configured warmup
count. -/
theorem begin_keeps_statistics (r : Runtime) (ts : ClockReading) :
    (r.begin ts).1.mCount = r.mCount ∧ (r.begin ts).1.mSum = r.mSum ∧
    (r.begin ts).1.mWarmupCount = r.mWarmupCount ∧
    (r.begin ts).1.mWarmupCountRemaining = r.mWarmupCount := by
  unfold Runtime.begin
  cases getMonoTimeNs ts <;> exact ⟨rfl, rfl, rfl, rfl⟩

/-- X4: `add` merges the accumulators and touches neither the warmup configuration, nor the
countdown, nor the checkpoint. -/
theorem add_keeps_configuration (r other : Runtime) :
    (r.add other).mWarmupCount = r.mWarmupCount ∧
    (r.add other).mWarmupCountRemaining = r.mWarmupCountRemaining ∧
    (r.add other).mBeginTime = r.mBeginTime ∧
    (r.add other).mCount = r.mCount.add other.mCount ∧
    (r.add other).mSum = r.mSum.add other.mSum :=
  ⟨rfl, rfl, rfl, rfl, rfl⟩

/-- X5: `record` updates the two accumulators together or not at all: either both are
left as they were (the call threw, or the countdown was still running and was decremented),
or the countdown was at zero, the call did not throw, and `elementCount` went into `mCount`
and the measured interval, at least 1 ns, into `mSum`. -/
theorem record_updates_together (r : Runtime) (ts : ClockReading) (elementCount : Nat) :
    ((r.record ts elementCount).1.mCount = r.mCount ∧
      (r.record ts elementCount).1.mSum = r.mSum) ∨
    ((r.record ts elementCount).2 = none ∧ r.mWarmupCountRemaining = 0 ∧
      ∃ δ, 1 ≤ δ ∧
        (r.record ts elementCount).1.mCount = r.mCount.add (Dbl.ofUInt64 elementCount) ∧
        (r.record ts elementCount).1.mSum = r.mSum.add (Dbl.ofUInt64 δ)) := by
  cases hrec : (r.record ts elementCount).2 with
  | some msg =>
    left
    unfold Runtime.record at hrec ⊢
    cases hg : getMonoTimeNs ts with
    | error e => exact ⟨rfl, rfl⟩
    | ok t =>
      rw [hg] at hrec
      simp only at hrec ⊢
      by_cases hz : (((t : Int) - (r.mBeginTime : Int)) % 2 ^ 64).toNat < 1
      · rw [if_pos hz]; exact ⟨rfl, rfl⟩
      · rw [if_neg hz] at hrec
        by_cases hw : r.mWarmupCountRemaining = 0
        · simp [hw] at hrec
        · simp [hw] at hrec
  | none =>
    obtain ⟨t, δ, -, -, hδ, hst⟩ := Runtime.record_cases r ts elementCount hrec
    by_cases hw : r.mWarmupCountRemaining = 0
    · right
      rw [if_pos hw] at hst
      exact ⟨rfl, hw, δ, hδ, by rw [hst], by rw [hst]⟩
    · left
      rw [if_neg hw] at hst
      rw [hst]
      exact ⟨rfl, rfl⟩

/-! ### A kernel that disagrees with the ground truth -/

theorem trial_loop_fails_first (env : Env) (va vb : List Int) (k : Nat) (ref : List Int)
    (n : Nat) (opd : operation_desc_t) (t : Thread)
    (hk : env.gKeepRunning t.flagReads = true)
    (hrec : (opd.runtime.record (env.clock t.clockCalls) kVectorSize).2 = none)
    (hne : opd.fn opd.result_vector va vb ≠ ref) :
    ∃ s, trial_loop env va vb k (some ref) (n + 1) opd t = .ret .error s ∧
      s.2.gHasErrors = true ∧ s.2.trials = t.trials ++ [k] := by
  have hcmp : ¬ (compareVectors (opd.fn opd.result_vector va vb) ref = true) := by
    rw [compareVectors_iff_eq]; exact hne
  unfold trial_loop
  rw [if_pos hk]
  simp only [hrec, Option.getD_some, if_neg hcmp]
  exact ⟨_, rfl, rfl, rfl⟩

/-- With a clock that ticks and a flag that stays set, a registry whose first kernel adds
vectors and whose second kernel does not reports the mismatch at the first trial of the
second kernel. -/
theorem sweep_second_fails (env : Env) (hclock : ClockTicks env)
    (hkeep : ∀ p, env.gKeepRunning p = true) (va vb : List Int)
    (ha : va.length = kVectorSize) (hb : vb.length = kVectorSize)
    (d0 d1 : operation_desc_t) (t : Thread)
    (h0 : AddsVectors d0.fn) (hl0 : d0.result_vector.length = kVectorSize)
    (h1 : ∀ vres, d1.fn vres va vb ≠ List.zipWith (fun a b => wrap32 (a + b)) va vb) :
    ∃ s, sweep env va vb [] [d0, d1] t = .ret .error s ∧ s.2.gHasErrors = true ∧
      s.2.trials = t.trials ++ List.replicate kRepeatCount 0 ++ [1] := by
  obtain ⟨a, b, hca, -, -⟩ := hclock t.clockCalls
  have hagree := trial_loop_agree env va vb 0 none ha hb (Or.inl rfl) kRepeatCount
    { d0 with runtime := (d0.runtime.begin (env.clock t.clockCalls)).1 }
    { t with clockCalls := t.clockCalls + 1 } h0 hl0
  have hnothrow := trial_loop_no_throw env hclock va vb 0 none kRepeatCount
    { d0 with runtime := (d0.runtime.begin (env.clock t.clockCalls)).1 }
    { t with clockCalls := t.clockCalls + 1 } t.clockCalls rfl
    (by rw [Runtime.begin_of_ok _ _ a hca]; exact hca)
  unfold sweep
  simp only [List.length_nil, List.head?_nil, Option.map_none']
  rw [Runtime.begin_of_ok _ _ a hca] at hagree hnothrow ⊢
  simp only at hagree hnothrow ⊢
  cases htl : trial_loop env va vb 0 none kRepeatCount
      { d0 with runtime := { d0.runtime with
          mWarmupCountRemaining := d0.runtime.mWarmupCount, mBeginTime := a } }
      { t with clockCalls := t.clockCalls + 1 } with
  | ret x s => exact absurd htl (hagree.1 x s)
  | throw msg s => exact absurd htl (hnothrow msg s)
  | next s =>
    obtain ⟨opd2, t2⟩ := s
    obtain ⟨-, -, hres⟩ := hagree.2 _ htl
    obtain ⟨ht, hf, hc, -, -, -⟩ := trial_loop_next _ _ _ _ _ _ _ _ _ htl
    have hpp : pollsPassed env.gKeepRunning t.flagReads kRepeatCount = kRepeatCount :=
      pollsPassed_all _ _ _ fun q _ => hkeep _
    simp only [hpp] at ht hf hc hres
    have hZ : opd2.result_vector = List.zipWith (fun a b => wrap32 (a + b)) va vb := by
      rcases hres with h | h
      · exact h
      · exact absurd h.2 (by decide)
    simp only
    unfold sweep
    simp only [List.nil_append, List.length_singleton, List.head?_cons, Option.map_some']
    obtain ⟨a2, b2, hca2, hcb2, hne2⟩ := hclock t2.clockCalls
    rw [Runtime.begin_of_ok _ _ a2 hca2]
    simp only
    have hrec := Runtime.record_ticks
      { d1.runtime with mWarmupCountRemaining := d1.runtime.mWarmupCount, mBeginTime := a2 }
      (env.clock (t2.clockCalls + 1)) kVectorSize a2 b2 hcb2 rfl
      (getMonoTimeNs_lt _ _ hca2) hne2
    obtain ⟨s, hs, hg, htr⟩ := trial_loop_fails_first env va vb 1 opd2.result_vector 99
      { d1 with runtime := { d1.runtime with
          mWarmupCountRemaining := d1.runtime.mWarmupCount, mBeginTime := a2 } }
      { t2 with clockCalls := t2.clockCalls + 1 } (hkeep _) hrec.1
      (by rw [hZ]; exact h1 _)
    have hk : kRepeatCount = 99 + 1 := rfl
    rw [hk, hs]
    simp only
    refine ⟨_, rfl, hg, ?_⟩
    simp only
    rw [htr]
    simp only
    rw [ht, ← hk]

theorem wrap32_succ_ne (x : Int) : wrap32 (x + 1) ≠ wrap32 x := by
  unfold wrap32
  norm_num
  omega

theorem off_by_one_differs (vres va vb : List Int) (ha : va.length = kVectorSize)
    (hb : vb.length = kVectorSize) :
    vector_add_off_by_one vres va vb ≠ List.zipWith (fun a b => wrap32 (a + b)) va vb := by
  have hk : 0 < kVectorSize := by decide
  cases va with
  | nil => simp at ha; omega
  | cons a as =>
    cases vb with
    | nil => simp at hb; omega
    | cons b bs =>
      intro h
      simp only [vector_add_off_by_one, List.zipWith_cons_cons, List.cons.injEq] at h
      exact wrap32_succ_ne (a + b) h.1

theorem run_faulty (env : Env) (hclock : ClockTicks env)
    (hkeep : ∀ p, env.gKeepRunning p = true) (d0 d1 : operation_desc_t) (L : Int)
    (t : Thread) (h0 : AddsVectors d0.fn) (hl0 : d0.result_vector.length = kVectorSize)
    (h1 : ∀ vres va vb : List Int, va.length = kVectorSize → vb.length = kVectorSize →
      d1.fn vres va vb ≠ List.zipWith (fun a b => wrap32 (a + b)) va vb) :
    ∃ s, run env L 1 ([d0, d1], t) = .ret .error s ∧ s.2.gHasErrors = true ∧
      s.2.trials = t.trials ++ List.replicate kRepeatCount 0 ++ [1] := by
  obtain ⟨s, hs, hg, htr⟩ := sweep_second_fails env hclock hkeep
    (makeVector env.rand t.randCalls kVectorSize)
    (makeVector env.rand (t.randCalls + 2 * kVectorSize) kVectorSize)
    (makeVector_length _ _ _) (makeVector_length _ _ _)
    { d0 with result_vector := memset_zero d0.result_vector kVectorSize }
    { d1 with result_vector := memset_zero d1.result_vector kVectorSize }
    { t with randCalls := t.randCalls + 4 * kVectorSize } h0
    (by simp only [memset_zero_length]; exact hl0)
    (fun vres => h1 vres _ _ (makeVector_length _ _ _) (makeVector_length _ _ _))
  refine ⟨s, ?_, hg, htr⟩
  have hit : iteration env L ([d0, d1], t) = .ret .error s := by
    unfold iteration
    simp only [zero_result_vectors, List.map_cons, List.map_nil]
    rw [hs]
  rw [run, hit]

/-- X6: with a clock that ticks and a flag that stays set, a worker whose first kernel adds
vectors and whose second kernel never leaves the sum returns by the mismatch branch in its
first outer iteration, with `gHasErrors` set, after `kRepeatCount` calls of the first
kernel and one call of the second. -/
theorem faulty_kernel_detected (env : Env) (d0 d1 : operation_desc_t)
    (iterationCount : Int) (gHasErrors : Bool)
    (hclock : ClockTicks env) (hkeep : ∀ p, env.gKeepRunning p = true)
    (h0 : AddsVectors d0.fn) (hl0 : d0.result_vector.length = kVectorSize)
    (h1 : ∀ vres va vb : List Int, va.length = kVectorSize → vb.length = kVectorSize →
      d1.fn vres va vb ≠ List.zipWith (fun a b => wrap32 (a + b)) va vb) :
    ∃ s, worker_thread_main env [d0, d1] iterationCount gHasErrors 1 = .ret .error s ∧
      s.2.gHasErrors = true ∧ s.2.trials = List.replicate kRepeatCount 0 ++ [1] := by
  obtain ⟨s, hs, hg, htr⟩ := run_faulty env hclock hkeep d0 d1 iterationCount
    (Thread.start gHasErrors) h0 hl0 h1
  exact ⟨s, hs, hg, by simpa [Thread.start] using htr⟩

/-- X6, witness: `"c"` followed by a kernel that is off by one. -/
theorem faulty_kernel_detected_witness :
    ∃ s, worker_thread_main freeEnv faultyOpDescriptors 1 false 1 = .ret .error s ∧
      s.2.gHasErrors = true ∧ s.2.trials = List.replicate kRepeatCount 0 ++ [1] :=
  faulty_kernel_detected freeEnv _ _ 1 false clockTicks_freeEnv (fun _ => rfl)
    (fun vres va vb ha hb => vector_add_i32_c_zipWith ⟨vres, va, vb⟩ ha hb)
    (by simp [resize])
    (fun vres va vb ha hb => off_by_one_differs vres va vb ha hb)

end SveDemo
